import Mathlib

/-!
# Iris reader and integer primitives

A shallow embedding of `reader/parser/parser.go`, `runtime/integer_class.go`
and `runtime/util.go`, and the properties of the reader grammar and of the
integer primitives proved over it.

Conventions of the embedding:

* `ilos.Instance` is a Go interface; its `nil` value is the constructor
  `Instance.nil`, so that a Go result pair `(ilos.Instance, ilos.Instance)`
  is a pair of `Instance`s and an empty slot is `Instance.nil`.
* Go `int` is the 64-bit two's complement integer; it is held in `Int` and
  wrapped with `wrap64` where an operation can leave the range.
* A token is a `String`; the regular expressions of the parser are matchers
  over the token's list of runes.
* The tokenizer is a list of the tokens still to be delivered.
* The recursion of `Parse`, `parseCons` and `parseMacro` is indexed by a fuel
  argument; `ParseTop` supplies enough of it for the whole token list.
-/

namespace Iris

/-! ## Object model -/

/-- Class tags that the code at hand stores inside a condition. -/
inductive Class where
  | Object
  | Number
  | Integer
  deriving DecidableEq, Repr

/-- How the reader builds a float: the text handed to `strconv.ParseFloat` and,
for the exponential form, the argument of `math.Pow10`. The floating point
value itself is not computed. -/
structure FloatLit where
  mantissa : String
  exp10 : Option Int
  deriving DecidableEq, Repr

/-- The values of `ilos.Instance` that the reader and the integer primitives
build. `nil` is the nil interface value of Go. A condition is an instance of
its class with its two named fields. -/
inductive Instance where
  | nil
  | Integer (n : Int)
  | Float (f : FloatLit)
  | Character (c : Char)
  | String (s : String)
  | Symbol (name : String)
  | Null
  | Cons (car cdr : Instance)
  | Class (c : Class)
  | ParseError (string expectedClass : Instance)
  | DomainError (object expectedClass : Instance)
  | DivisionByZero (operation operands : Instance)
  deriving DecidableEq, Repr

/-- Sentinel `eop` of the parser. -/
def eop : Instance := Instance.Symbol "End Of Parentheses"

/-- Sentinel `bod` of the parser. -/
def bod : Instance := Instance.Symbol "Begin Of Dot"

/-! ## Machine integers and `strconv` -/

/-- Two's complement wrap of an integer into the range of `int64`. -/
def wrap64 (n : Int) : Int := (n + 2 ^ 63) % 2 ^ 64 - 2 ^ 63

/-- Range `[l-h]` of a rune class, on the code points of the runes. -/
def inRange (l h c : Char) : Bool := decide (l.toNat ≤ c.toNat ∧ c.toNat ≤ h.toNat)

/-- The two errors of `strconv`: `ErrSyntax` and `ErrRange`. -/
inductive NumError where
  | invalid
  | outOfRange
  deriving DecidableEq, Repr

/-- Digit value of a byte in `strconv.ParseUint`: `0`-`9` count 0-9, a letter
of either case counts 10-35, any other byte is no digit. -/
def digitVal (c : Char) : Option Nat :=
  if inRange '0' '9' c then some (c.toNat - '0'.toNat)
  else if inRange 'a' 'z' c then some (c.toNat - 'a'.toNat + 10)
  else if inRange 'A' 'Z' c then some (c.toNat - 'A'.toNat + 10)
  else none

/-- The digit loop of `strconv.ParseUint`, on `uint64` arithmetic: `cutoff` is
the least number whose product with the base overflows, `maxVal` the largest
value of the requested bit size. -/
def parseUintLoop (base cutoff maxVal : Nat) : List Char → Nat → Nat × Option NumError
  | [], n => (n, none)
  | c :: cs, n =>
    match digitVal c with
    | none => (0, some NumError.invalid)
    | some d =>
      if base ≤ d then (0, some NumError.invalid)
      else if cutoff ≤ n then (maxVal, some NumError.outOfRange)
      else
        let m := (n * base) % 2 ^ 64
        let n1 := (m + d) % 2 ^ 64
        if n1 < m ∨ maxVal < n1 then (maxVal, some NumError.outOfRange)
        else parseUintLoop base cutoff maxVal cs n1

/-- Model of `strconv.ParseUint(s, base, bitSize)` for an explicit base
between 2 and 36 and a bit size between 1 and 64. -/
def ParseUint (s : List Char) (base bitSize : Nat) : Nat × Option NumError :=
  if s = [] then (0, some NumError.invalid)
  else parseUintLoop base ((2 ^ 64 - 1) / base + 1) (2 ^ bitSize - 1) s 0

/-- Model of `strconv.ParseInt(s, base, bitSize)`: the sign is picked off, the
rest is converted unsigned, and a value outside the signed range is replaced
by the nearest bound together with a range error. -/
def ParseInt (s : List Char) (base bitSize : Nat) : Int × Option NumError :=
  match s with
  | [] => (0, some NumError.invalid)
  | c :: cs =>
    let neg : Bool := c == '-'
    let body := if c == '+' ∨ c == '-' then cs else c :: cs
    match ParseUint body base bitSize with
    | (_, some NumError.invalid) => (0, some NumError.invalid)
    | (un, _) =>
      let cutoff : Nat := 2 ^ (bitSize - 1)
      if neg = false ∧ cutoff ≤ un then ((cutoff : Int) - 1, some NumError.outOfRange)
      else if neg = true ∧ cutoff < un then (-(cutoff : Int), some NumError.outOfRange)
      else
        let n := wrap64 (un : Int)
        (if neg then wrap64 (-n) else n, none)

/-! ## Regular expressions of the reader -/

/-- Class `[[:digit:]]`. -/
def isDigit (c : Char) : Bool := inRange '0' '9' c

/-- Class `[01]`. -/
def isBinDigit (c : Char) : Bool := inRange '0' '1' c

/-- Class `[0-7]`. -/
def isOctDigit (c : Char) : Bool := inRange '0' '7' c

/-- Class `[[:xdigit:]]`. -/
def isHexDigit (c : Char) : Bool := inRange '0' '9' c || inRange 'A' 'F' c || inRange 'a' 'f' c

/-- Class `[a-zA-Z]`. -/
def isAlpha (c : Char) : Bool := inRange 'a' 'z' c || inRange 'A' 'Z' c

/-- Class `[[:graph:]]`: the visible ASCII runes `!` to `~`. -/
def isGraph (c : Char) : Bool := inRange '!' '~' c

/-- Class `[-+]`. -/
def isSign (c : Char) : Bool := c == '-' || c == '+'

/-- Punctuation runes of the class `[<>/*=?_!$%[\]^{}~]`. -/
def symPunct : List Char :=
  ['<', '>', '/', '*', '=', '?', '_', '!', '$', '%', '[', ']', '^', '{', '}', '~']

/-- Class `[a-zA-Z<>/*=?_!$%[\]^{}~]`, the first rune of an identifier. -/
def isSymStart (c : Char) : Bool := isAlpha c || symPunct.contains c

/-- Class `[-a-zA-Z0-9+<>/*=?_!$%[\]^{}~]`, the later runes of an identifier. -/
def isSymRest (c : Char) : Bool :=
  c == '-' || isAlpha c || isDigit c || c == '+' || symPunct.contains c

/-- Rune matched by `.`: any rune but the newline. -/
def isDot (c : Char) : Bool := c != '\n'

/-- Pattern `[-+]?` at the start of the text: what is left after it. A sign is
always taken, since none of the patterns that follow it can start with one. -/
def dropSign : List Char → List Char
  | [] => []
  | c :: cs => if isSign c then cs else c :: cs

/-- Pattern `X+$` for a rune class `X`: one or more runes of the class up to the
end of the text. -/
def plus (p : Char → Bool) (cs : List Char) : Bool := !cs.isEmpty && cs.all p

/-- Pattern `^[-+]?[[:digit:]]+$`. -/
def reDecimal (cs : List Char) : Bool := plus isDigit (dropSign cs)

/-- Pattern `^#[lL]([-+]?X+)$` with `l`, `L` the two radix letters and `X` the
digit class of the radix; the result is the submatch. -/
def reRadix (l u : Char) (p : Char → Bool) : List Char → Option (List Char)
  | '#' :: c :: r => if (c == l || c == u) && plus p (dropSign r) then some r else none
  | _ => none

/-- Pattern `^[-+]?[[:digit:]]+\.[[:digit:]]+$`. -/
def reFloat (cs : List Char) : Bool :=
  match (dropSign cs).span isDigit with
  | (a, '.' :: b) => !a.isEmpty && plus isDigit b
  | _ => false

/-- Pattern `^([-+]?[[:digit:]]+(?:\.[[:digit:]]+)?)[eE]([-+]?[[:digit:]]+)$`;
the result is the pair of submatches, mantissa and exponent. -/
def reExpFloat (cs : List Char) : Option (List Char × List Char) :=
  let tail (r : List Char) : Option (List Char) :=
    match r with
    | c :: x => if (c == 'e' || c == 'E') && plus isDigit (dropSign x) then some x else none
    | [] => none
  match (dropSign cs).span isDigit with
  | (a, r) =>
    if a.isEmpty then none
    else
      let afterFrac : Option (List Char) :=
        match r with
        | '.' :: r1 =>
          match r1.span isDigit with
          | (b, r2) => if b.isEmpty then none else some r2
        | _ => some r
      match afterFrac.bind tail with
      | some x => some (cs.take (cs.length - x.length - 1), x)
      | none => none

/-- Pattern `^#\\([[:graph:]])$`; the result is the submatched rune. -/
def reChar : List Char → Option Char
  | ['#', '\\', c] => if isGraph c then some c else none
  | _ => none

/-- Pattern `^q.*q$` for a delimiter rune `q`. -/
def reDelimited (q : Char) : List Char → Bool
  | [] => false
  | c :: r => c == q && !r.isEmpty && r.getLast? == some q && r.dropLast.all isDot

/-- Pattern of the symbols, in the order of its alternatives:
`[:&][a-zA-Z]+`, `\|.*\|`, `\+`, `\-`, `1\+`, `1\-`, the identifiers, and the
empty alternative that the trailing `|` of the pattern text leaves before `)$`. -/
def reSymbol (cs : List Char) : Bool :=
  (match cs with
    | c :: r => (c == ':' || c == '&') && plus isAlpha r
    | [] => false)
  || reDelimited '|' cs
  || cs == ['+'] || cs == ['-'] || cs == ['1', '+'] || cs == ['1', '-']
  || (match cs with
    | c :: r => isSymStart c && r.all isSymRest
    | [] => false)
  || cs.isEmpty

/-! ## Atoms -/

/-- What the reader takes from outside the sources at hand. -/
structure Host where
  /-- Value of `unicode.ToUpper` on the runes outside ASCII. -/
  upperTable : Char → Char
  /-- The condition that the tokenizer's `Next` reports once its tokens are
  exhausted. -/
  eof : Instance

/-- Upper case of one rune as `strings.ToUpper` maps it: an ASCII letter by the
fixed offset, a rune outside ASCII by the Unicode table. -/
def upperRune (H : Host) (c : Char) : Char :=
  if c.toNat < 128 then (if inRange 'a' 'z' c then Char.ofNat (c.toNat - 32) else c)
  else H.upperTable c

/-- Model of `strings.ToUpper`. -/
def ToUpper (H : Host) (s : String) : String := String.mk (s.toList.map (upperRune H))

/-- Translation of `ParseAtom`. -/
def ParseAtom (H : Host) (tok : String) : Instance × Instance :=
  let cs := tok.toList
  if reDecimal cs then (Instance.Integer (ParseInt cs 10 64).1, Instance.nil)
  else match reRadix 'b' 'B' isBinDigit cs with
  | some r => (Instance.Integer (ParseInt r 2 64).1, Instance.nil)
  | none =>
  match reRadix 'o' 'O' isOctDigit cs with
  | some r => (Instance.Integer (ParseInt r 8 64).1, Instance.nil)
  | none =>
  match reRadix 'x' 'X' isHexDigit cs with
  | some r => (Instance.Integer (ParseInt r 16 64).1, Instance.nil)
  | none =>
  if reFloat cs then (Instance.Float ⟨tok, none⟩, Instance.nil)
  else match reExpFloat cs with
  | some (m, e) => (Instance.Float ⟨String.mk m, some (ParseInt e 10 64).1⟩, Instance.nil)
  | none =>
  if tok = "#\\newline" then (Instance.Character '\n', Instance.nil)
  else if tok = "#\\space" then (Instance.Character ' ', Instance.nil)
  else match reChar cs with
  | some c => (Instance.Character c, Instance.nil)
  | none =>
  if reDelimited '"' cs then (Instance.String tok, Instance.nil)
  else if tok = "nil" then (Instance.Null, Instance.nil)
  else if reSymbol cs then (Instance.Symbol (ToUpper H tok), Instance.nil)
  else (Instance.nil,
    Instance.ParseError (Instance.String tok) (Instance.Class Class.Object))

/-! ## Forms -/

/-- The tokenizer, as the list of the tokens it has still to deliver. -/
abbrev Tokenizer := List String

/-- Modelled from the spec: `Next` of the tokenizer package, which is not among
the sources. It yields the next token and no condition, or an end of input
condition once the tokens are exhausted; the condition itself is `H.eof`. -/
def Next (H : Host) : Tokenizer → String × Instance × Tokenizer
  | [] => ("", H.eof, [])
  | tok :: rest => (tok, Instance.nil, rest)

/-- Pattern `^(?:#'|,@?|'|BQ|#[[:digit:]]*[aA])$` of `Parse`, where BQ stands
for the backquote. -/
def reMacro (tok : String) : Bool :=
  tok == "#'" || tok == "," || tok == ",@" || tok == "'" || tok == "`"
  || (match tok.toList with
    | '#' :: r =>
      (match r.dropWhile isDigit with
        | [c] => c == 'a' || c == 'A'
        | _ => false)
    | _ => false)

/-- Pattern `#[[:digit:]]*[aA]` matched at the start of the text. -/
def arrayAt : List Char → Bool
  | '#' :: r =>
    (match r.dropWhile isDigit with
      | c :: _ => c == 'a' || c == 'A'
      | [] => false)
  | _ => false

/-- Pattern `#[[:digit:]]*[aA]` of `parseMacro`, which is not anchored: a match
anywhere in the token counts. -/
def reArray (cs : List Char) : Bool := cs.tails.any arrayAt

/-- Index of the first `a` in the lower-cased token,
`strings.IndexRune(strings.ToLower(tok), 'a')`, with -1 as the length of the
text when there is none. The tokens that reach `parseMacro` are ASCII, where
rune and byte indices agree and only `a` and `A` lower to `a`. -/
def indexOfA (cs : List Char) : Nat := cs.findIdx (fun c => c == 'a' || c == 'A')

/-- Result of a parsing function: the value slot, the condition slot and the
tokenizer after the call. -/
abbrev Result := Instance × Instance × Tokenizer

mutual

/-- Translation of `Parse`. With no fuel left the result is `none`. -/
def Parse (H : Host) : Nat → Tokenizer → Option Result
  | 0, _ => none
  | fuel + 1, t =>
    match Next H t with
    | (tok, err, t1) =>
      if err ≠ Instance.nil then some (Instance.nil, err, t1)
      else if tok = "(" then
        match parseCons H fuel t1 with
        | none => none
        | some (cons, err, t2) =>
          if err ≠ Instance.nil then some (Instance.nil, err, t2)
          else some (cons, err, t2)
      else if tok = ")" then some (Instance.nil, eop, t1)
      else if tok = "." then some (Instance.nil, bod, t1)
      else if reMacro tok then
        match parseMacro H fuel tok t1 with
        | none => none
        | some (m, err, t2) =>
          if err ≠ Instance.nil then some (Instance.nil, err, t2)
          else some (m, Instance.nil, t2)
      else
        match ParseAtom H tok with
        | (atom, err) =>
          if err ≠ Instance.nil then some (Instance.nil, err, t1)
          else some (atom, Instance.nil, t1)

/-- Translation of `parseCons`. -/
def parseCons (H : Host) : Nat → Tokenizer → Option Result
  | 0, _ => none
  | fuel + 1, t =>
    match Parse H fuel t with
    | none => none
    | some (car, err, t1) =>
      if err = eop then some (Instance.Null, Instance.nil, t1)
      else if err = bod then
        match Parse H fuel t1 with
        | none => none
        | some (cdr, err, t2) =>
          if err ≠ Instance.nil then some (Instance.nil, err, t2)
          else
            match Parse H fuel t2 with
            | none => none
            | some (_, err, t3) =>
              if err ≠ eop then some (Instance.nil, err, t3)
              else some (cdr, Instance.nil, t3)
      else if err ≠ Instance.nil then some (Instance.nil, err, t1)
      else
        match parseCons H fuel t1 with
        | none => none
        | some (cdr, err, t2) =>
          if err ≠ Instance.nil then some (Instance.nil, err, t2)
          else some (Instance.Cons car cdr, Instance.nil, t2)

/-- Translation of `parseMacro`. The text `tok[1:i]` is the runes of the token
from the second up to the first `a`. -/
def parseMacro (H : Host) : Nat → String → Tokenizer → Option Result
  | 0, _, _ => none
  | fuel + 1, tok, t =>
    match Parse H fuel t with
    | none => none
    | some (cdr, err, t1) =>
      if err ≠ Instance.nil then some (Instance.nil, err, t1)
      else if reArray tok.toList then
        let s := Instance.Symbol "array"
        let i := indexOfA tok.toList
        if i = 1 then
          some (Instance.Cons s (Instance.Cons (Instance.Integer 1)
            (Instance.Cons cdr Instance.Null)), Instance.nil, t1)
        else
          match ParseInt ((tok.toList.take i).drop 1) 10 32 with
          | (_, some _) =>
            some (Instance.nil,
              Instance.ParseError (Instance.String tok) (Instance.Class Class.Integer), t1)
          | (v, none) =>
            some (Instance.Cons s (Instance.Cons (Instance.Integer v)
              (Instance.Cons cdr Instance.Null)), Instance.nil, t1)
      else
        let n :=
          if tok = "#'" then "FUNCTION"
          else if tok = ",@" then "commaat"
          else if tok = "," then "comma"
          else if tok = "'" then "QUOTE"
          else if tok = "`" then "BACKQUOTE"
          else tok
        some (Instance.Cons (Instance.Symbol n) (Instance.Cons cdr Instance.Null),
          Instance.nil, t1)

end

/-- A top-level call of `Parse`, with fuel for the whole token list: every
call of `Parse` that recurses has taken a token first, and `parseCons` calls
itself only after a call of `Parse`. -/
def ParseTop (H : Host) (t : Tokenizer) : Option Result := Parse H (2 * t.length + 2) t

/-! ## Integer primitives -/

/-- Modelled from the spec: `instance.Of` of the instance package, which is not
among the sources: membership of a value in a class, where every Integer is a
Number and every value is an Object. -/
def Of (c : Class) (i : Instance) : Bool :=
  match c, i with
  | _, Instance.nil => false
  | Class.Object, _ => true
  | Class.Number, Instance.Integer _ => true
  | Class.Number, Instance.Float _ => true
  | Class.Integer, Instance.Integer _ => true
  | _, _ => false

/-- Modelled from the spec: `ensure` of the runtime package, which is not among
the sources: no condition for a member of the class, else a domain condition
that holds the offending value and the expected class. -/
def ensure (c : Class) (z : Instance) : Instance :=
  if Of c z then Instance.nil else Instance.DomainError z (Instance.Class c)

/-- Translation of `convInt`; the type assertion `z.(instance.Integer)` yields
the payload of an Integer. -/
def convInt (z : Instance) : Int × Instance :=
  if ensure Class.Integer z ≠ Instance.nil then (0, ensure Class.Integer z)
  else
    match z with
    | Instance.Integer n => (n, Instance.nil)
    | _ => (0, Instance.nil)

/-- Quotient `a / b` of Go on `int`: truncated toward zero, and wrapped where
the most negative value is divided by -1. -/
def goQuo (a b : Int) : Int := wrap64 (Int.tdiv a b)

/-- Remainder `a % b` of Go on `int`: the sign of the dividend. -/
def goRem (a b : Int) : Int := Int.tmod a b

/-- Translation of `Div`; the two environment arguments are unused. -/
def Div (z1 z2 : Instance) : Instance × Instance :=
  match convInt z1 with
  | (a, err) =>
    if err ≠ Instance.nil then (Instance.nil, err)
    else
      match convInt z2 with
      | (b, err) =>
        if err ≠ Instance.nil then (Instance.nil, err)
        else if b = 0 then
          (Instance.nil, Instance.DivisionByZero (Instance.Symbol "DIV")
            (Instance.Cons z1 (Instance.Cons z2 Instance.Null)))
        else (Instance.Integer (goQuo a b), Instance.nil)

/-- Translation of `Mod`; the two environment arguments are unused. -/
def Mod (z1 z2 : Instance) : Instance × Instance :=
  match convInt z1 with
  | (a, err) =>
    if err ≠ Instance.nil then (Instance.nil, err)
    else
      match convInt z2 with
      | (b, err) =>
        if err ≠ Instance.nil then (Instance.nil, err)
        else if b = 0 then
          (Instance.nil, Instance.DivisionByZero (Instance.Symbol "MOD")
            (Instance.Cons z1 (Instance.Cons z2 Instance.Null)))
        else (Instance.Integer (goRem a b), Instance.nil)

/-- The Euclidean loop `for y != 0 { x, y = y, x%y }; return x` of `Gcd` and of
`Lcm`, one round for each unit of fuel; `none` when the fuel runs out before
`y` is zero. -/
def gcdLoop : Nat → Int → Int → Option Int
  | 0, _, _ => none
  | fuel + 1, x, y => if y ≠ 0 then gcdLoop fuel y (goRem x y) else some x

/-- Translation of `Gcd`, with the fuel of its loop; the two environment
arguments are unused. -/
def Gcd (fuel : Nat) (z1 z2 : Instance) : Option (Instance × Instance) :=
  match convInt z1 with
  | (a, err) =>
    if err ≠ Instance.nil then some (Instance.nil, err)
    else
      match convInt z2 with
      | (b, err) =>
        if err ≠ Instance.nil then some (Instance.nil, err)
        else
          match gcdLoop fuel a b with
          | none => none
          | some g => some (Instance.Integer g, Instance.nil)

/-- A call of `Gcd` with fuel for its loop: every round makes the absolute
value of `y` smaller. -/
def GcdTop (z1 z2 : Instance) : Option (Instance × Instance) :=
  Gcd ((convInt z2).1.natAbs + 1) z1 z2

/-- What a call of a primitive does: it returns its two results, or the Go
run time panics. -/
inductive Outcome where
  | returns (value condition : Instance)
  | panics
  deriving DecidableEq, Repr

/-- Translation of `Lcm`, with the fuel of its loop. The product `a * b` wraps
as `int` does, and the division panics in Go when the divisor is zero. -/
def Lcm (fuel : Nat) (z1 z2 : Instance) : Option Outcome :=
  match convInt z1 with
  | (a, err) =>
    if err ≠ Instance.nil then some (Outcome.returns Instance.nil err)
    else
      match convInt z2 with
      | (b, err) =>
        if err ≠ Instance.nil then some (Outcome.returns Instance.nil err)
        else
          match gcdLoop fuel a b with
          | none => none
          | some g =>
            if g = 0 then some Outcome.panics
            else some (Outcome.returns (Instance.Integer (goQuo (wrap64 (a * b)) g))
              Instance.nil)

/-- A call of `Lcm` with fuel for its loop. -/
def LcmTop (z1 z2 : Instance) : Option Outcome :=
  Lcm ((convInt z2).1.natAbs + 1) z1 z2

/-- Translation of `Isqrt`. The floating point computation
`int(math.Sqrt(float64(a)))` is the parameter `floatSqrt`; the two environment
arguments are unused. -/
def Isqrt (floatSqrt : Int → Int) (z : Instance) : Instance × Instance :=
  match convInt z with
  | (a, err) =>
    if err ≠ Instance.nil then (Instance.nil, err)
    else if a < 0 then
      (Instance.nil, Instance.DomainError z (Instance.Class Class.Number))
    else (Instance.Integer (floatSqrt a), Instance.nil)

/-- Translation of `IsProperList`: `instance.Of(class.Cons, i)` holds of the
pairs, whose cdr `instance.UnsafeCdr` yields, and `instance.Of(class.Null, i)`
of Null. On the nil interface, which is no value of the data model, the
model answers as `Of` does: it is in no class. -/
def IsProperList : Instance → Bool
  | Instance.Cons _ cdr => IsProperList cdr
  | Instance.Null => true
  | _ => false

/-! ## Notions of the specification -/

/-- The end of input condition is a condition of its own: neither the empty
slot nor one of the two sentinels. -/
def Host.Distinct (H : Host) : Prop :=
  H.eof ≠ Instance.nil ∧ H.eof ≠ eop ∧ H.eof ≠ bod

/-- A condition slot that does not come from the end of the input: it is empty
or holds one of the two sentinels. -/
def Clean (e : Instance) : Prop := e = Instance.nil ∨ e = eop ∨ e = bod

/-- What holds of every result of the three parsing functions: the value slot
is no sentinel, a sentinel in the condition slot is the token read last, just
before the tokens left over, and the tokens left over are an end of the tokens
given. -/
def NoLeak (t : Tokenizer) (r : Result) : Prop :=
  (r.1 ≠ eop ∧ r.1 ≠ bod) ∧ (r.2.1 = eop → (")" :: r.2.2) <:+ t) ∧
    (r.2.1 = bod → ("." :: r.2.2) <:+ t) ∧ r.2.2 <:+ t

/-- A host for the evaluations on concrete tokens: runes outside ASCII keep
their case and the end of input is a parse error on the empty text. -/
def sampleHost : Host where
  upperTable := fun c => c
  eof := Instance.ParseError (Instance.String "") (Instance.Class Class.Object)

/-- The right-nested chain `Cons(v1, Cons(.., Cons(vn, tail)))`. -/
def chain (vs : List Instance) (tail : Instance) : Instance :=
  vs.foldr Instance.Cons tail

/-- The tokens of a sequence of forms, each form given with the value it
parses to. -/
def formTokens (forms : List (List String × Instance)) : List String :=
  (forms.map Prod.fst).flatten

/-- The values of a sequence of forms. -/
def formValues (forms : List (List String × Instance)) : List Instance :=
  forms.map Prod.snd

/-- The number that a run of digits denotes in a radix, most significant digit
first, in exact arithmetic. -/
def digitsValue (base : Nat) (ds : List Char) : Nat :=
  ds.foldl (fun acc c => acc * base + (digitVal c).getD 0) 0

/-- The integer that an optional sign and a run of digits denote. -/
def signedValue (base : Nat) (sign ds : List Char) : Int :=
  if sign = ['-'] then -(digitsValue base ds : Int) else (digitsValue base ds : Int)

/-- The optional sign of a number: absent, `+` or `-`. -/
def IsSign (sign : List Char) : Prop := sign = [] ∨ sign = ['+'] ∨ sign = ['-']

/-- The range of `int64`. -/
def InInt64 (n : Int) : Prop := -(2 ^ 63 : Int) ≤ n ∧ n < 2 ^ 63

/-- A rune that is a digit of the radix. -/
def ValidDigit (base : Nat) (c : Char) : Prop := ∃ d, digitVal c = some d ∧ d < base

/-- A text that starts like no number and no character literal: it is empty or
its first rune is no sign, no digit and not `#`. -/
def NonNumericHead : List Char → Prop
  | [] => True
  | c :: _ => isSign c = false ∧ isDigit c = false ∧ c ≠ '#'

/-- Two runes that are equal, or are the two cases of one ASCII letter, or lie
outside ASCII and have the same upper case in the Unicode table. -/
def SameLetter (H : Host) (c d : Char) : Prop :=
  c = d ∨
  (isAlpha c = true ∧ isAlpha d = true ∧
    (c.toNat + 32 = d.toNat ∨ d.toNat + 32 = c.toNat)) ∨
  (128 ≤ c.toNat ∧ 128 ≤ d.toNat ∧ H.upperTable c = H.upperTable d)

/-- Two tokens that differ only in the case of their letters. -/
def CaseVariant (H : Host) (a b : String) : Prop :=
  List.Forall₂ (SameLetter H) a.toList b.toList

/-- The alternatives of the pattern of the symbols, the empty one left out,
for a given class of the later runes of an identifier. -/
def symbolForm (rest : Char → Bool) (cs : List Char) : Bool :=
  (match cs with
    | c :: r => (c == ':' || c == '&') && plus isAlpha r
    | [] => false)
  || reDelimited '|' cs
  || cs == ['+'] || cs == ['-'] || cs == ['1', '+'] || cs == ['1', '-']
  || (match cs with
    | c :: r => isSymStart c && r.all rest
    | [] => false)

/-- Some pattern of `ParseAtom` matches the token, the empty alternative of the
pattern of the symbols left out. -/
def atomForm (rest : Char → Bool) (tok : String) : Bool :=
  reDecimal tok.toList
  || (reRadix 'b' 'B' isBinDigit tok.toList).isSome
  || (reRadix 'o' 'O' isOctDigit tok.toList).isSome
  || (reRadix 'x' 'X' isHexDigit tok.toList).isSome
  || reFloat tok.toList
  || (reExpFloat tok.toList).isSome
  || tok == "#\\newline" || tok == "#\\space" || (reChar tok.toList).isSome
  || reDelimited '"' tok.toList
  || tok == "nil"
  || symbolForm rest tok.toList

/-- The quote-family tokens of the pattern of `Parse`. -/
def isQuoteTok (tok : String) : Bool :=
  tok == "#'" || tok == "," || tok == ",@" || tok == "'" || tok == "`"

/-- The head symbols that `parseMacro` gives to the quote-family tokens. -/
def quoteHeads : List (String × String) :=
  [("'", "QUOTE"), ("`", "BACKQUOTE"), (",", "comma"), (",@", "commaat"), ("#'", "FUNCTION")]

/-- The sized vector tokens `#[[:digit:]]*[aA]` of the pattern of `Parse`. -/
def isVectorTok (tok : String) : Bool :=
  match tok.toList with
  | '#' :: r =>
    (match r.dropWhile isDigit with
      | [c] => c == 'a' || c == 'A'
      | _ => false)
  | _ => false

/-- The digit span of a sized vector token. -/
def vectorDigits (tok : String) : List Char := (tok.toList.drop 1).takeWhile isDigit

/-- The size that a sized vector token states: 1 when it has no digits. -/
def vectorSize (tok : String) : Int :=
  if vectorDigits tok = [] then 1 else (digitsValue 10 (vectorDigits tok) : Int)

/-- The digit span of a sized vector token is a number that
`strconv.ParseInt(_, 10, 32)` takes. -/
def FitsInt32 (tok : String) : Prop := digitsValue 10 (vectorDigits tok) < 2 ^ 31

/-- The token sequences of exactly one well-formed form, for a given notion
`vec` of the sized vector tokens that count: an atom token that `ParseAtom`
accepts; a quote-family token or a sized vector token followed by a form;
`(`, forms and `)`; or `(`, one or more forms, `.`, a form and `)`. -/
inductive Form (H : Host) (vec : String → Prop) : List String → Prop where
  | atom (tok : String) : (ParseAtom H tok).2 = Instance.nil → Form H vec [tok]
  | quote (tok : String) (f : List String) :
      isQuoteTok tok = true → Form H vec f → Form H vec (tok :: f)
  | vector (tok : String) (f : List String) :
      isVectorTok tok = true → vec tok → Form H vec f → Form H vec (tok :: f)
  | list (fs : List (List String)) :
      (∀ f ∈ fs, Form H vec f) → Form H vec ("(" :: fs.flatten ++ [")"])
  | dotted (fs : List (List String)) (tail : List String) :
      fs ≠ [] → (∀ f ∈ fs, Form H vec f) → Form H vec tail →
      Form H vec ("(" :: fs.flatten ++ "." :: tail ++ [")"])

/-! ## The grammar of the specification

The atom forms as the specification words them, written on explicit lists of
runes and on the ways to cut a token, and not on the patterns of the code. -/

/-- The decimal digits. -/
def decDigits : List Char := "0123456789".toList

/-- The digits of radix 2. -/
def binDigits : List Char := "01".toList

/-- The digits of radix 8. -/
def octDigits : List Char := "01234567".toList

/-- The digits of radix 16, in either case. -/
def hexDigits : List Char := "0123456789abcdefABCDEF".toList

/-- The letters. -/
def letters : List Char := "abcdefghijklmnopqrstuvwxyzABCDEFGHIJKLMNOPQRSTUVWXYZ".toList

/-- The fixed punctuation set of the identifiers. -/
def punctuation : List Char := "<>/*=?_!$%[]^{}~".toList

/-- The later runes of an identifier as the specification lists them: letters,
digits, `-` and the punctuation set. -/
def claimRest : List Char := letters ++ decDigits ++ ['-'] ++ punctuation

/-- The later runes of an identifier with `+` added. -/
def amendedRest : List Char := '+' :: claimRest

/-- The ways to cut a text in two. -/
def splits (cs : List Char) : List (List Char × List Char) :=
  (List.range (cs.length + 1)).map fun i => (cs.take i, cs.drop i)

/-- One or more runes, all of a class. -/
def isRun (cls : List Char) (ds : List Char) : Bool := !ds.isEmpty && ds.all cls.contains

/-- An optional sign: nothing, `+` or `-`. -/
def isOptSign (s : List Char) : Bool := s == [] || s == ['+'] || s == ['-']

/-- An optional sign followed by one or more digits of a class. -/
def specSigned (cls : List Char) (cs : List Char) : Bool :=
  (splits cs).any fun p => isOptSign p.1 && isRun cls p.2

/-- Radix integer: `#b`/`#B`, `#o`/`#O` or `#x`/`#X`, then an optional sign and
digits of the radix. -/
def specRadix : List Char → Bool
  | '#' :: l :: r =>
    ((l == 'b' || l == 'B') && specSigned binDigits r)
    || ((l == 'o' || l == 'O') && specSigned octDigits r)
    || ((l == 'x' || l == 'X') && specSigned hexDigits r)
  | _ => false

/-- Decimal float: an optional sign, digits, `.` and digits. -/
def specFloat (cs : List Char) : Bool :=
  (splits cs).any fun p =>
    specSigned decDigits p.1 &&
    (match p.2 with
      | '.' :: b => isRun decDigits b
      | _ => false)

/-- Exponential float: an optional sign, digits, optionally `.` and digits,
then `e` or `E` and an optionally signed run of digits. -/
def specExpFloat (cs : List Char) : Bool :=
  (splits cs).any fun p =>
    (specSigned decDigits p.1 || specFloat p.1) &&
    (match p.2 with
      | e :: x => (e == 'e' || e == 'E') && specSigned decDigits x
      | [] => false)

/-- Character literal: `#\newline`, `#\space`, or `#\` and one visible ASCII
rune (code points 33 to 126). -/
def specChar (cs : List Char) : Bool :=
  cs == "#\\newline".toList || cs == "#\\space".toList
  || (match cs with
    | ['#', '\\', c] => decide (33 ≤ c.toNat ∧ c.toNat ≤ 126)
    | _ => false)

/-- Any text wrapped in a pair of one delimiter rune. -/
def specWrapped (q : Char) (cs : List Char) : Bool :=
  decide (2 ≤ cs.length) && cs.head? == some q && cs.getLast? == some q

/-- Symbol: a name of letters after `:` or `&`, a text between pipes, one of
`+`, `-`, `1+`, `1-`, or an identifier that starts with a letter or a rune of
the punctuation set and goes on with runes of the class `rest`. -/
def specSymbol (rest : List Char) (cs : List Char) : Bool :=
  (match cs with
    | c :: r => (c == ':' || c == '&') && isRun letters r
    | [] => false)
  || specWrapped '|' cs
  || cs == "+".toList || cs == "-".toList || cs == "1+".toList || cs == "1-".toList
  || (match cs with
    | c :: r => (letters ++ punctuation).contains c && r.all rest.contains
    | [] => false)

/-- The atom forms of the reader grammar: decimal or radix integer, decimal or
exponential float, character literal, string literal, the token `nil`, or a
symbol. -/
def specAtom (rest : List Char) (tok : String) : Bool :=
  specSigned decDigits tok.toList || specRadix tok.toList
  || specFloat tok.toList || specExpFloat tok.toList
  || specChar tok.toList
  || specWrapped '"' tok.toList
  || tok == "nil"
  || specSymbol rest tok.toList

/-! # Theorems -/

/-! ## The parsing functions: fuel -/

theorem Parse_nil_tokens (H : Host) (f : Nat) :
    Parse H (f + 1) [] =
      if H.eof ≠ Instance.nil then some (Instance.nil, H.eof, []) else
        (if reMacro "" then
          match parseMacro H f "" [] with
          | none => none
          | some (m, err, t2) =>
            if err ≠ Instance.nil then some (Instance.nil, err, t2)
            else some (m, Instance.nil, t2)
        else
          match ParseAtom H "" with
          | (atom, err) =>
            if err ≠ Instance.nil then some (Instance.nil, err, [])
            else some (atom, Instance.nil, [])) := by
  rw [Parse]; simp [Next]

theorem Parse_cons_tokens (H : Host) (f : Nat) (tok : String) (t : Tokenizer) :
    Parse H (f + 1) (tok :: t) =
      if tok = "(" then
        match parseCons H f t with
        | none => none
        | some (cons, err, t2) =>
          if err ≠ Instance.nil then some (Instance.nil, err, t2)
          else some (cons, err, t2)
      else if tok = ")" then some (Instance.nil, eop, t)
      else if tok = "." then some (Instance.nil, bod, t)
      else if reMacro tok then
        match parseMacro H f tok t with
        | none => none
        | some (m, err, t2) =>
          if err ≠ Instance.nil then some (Instance.nil, err, t2)
          else some (m, Instance.nil, t2)
      else if (ParseAtom H tok).2 ≠ Instance.nil then
        some (Instance.nil, (ParseAtom H tok).2, t)
      else some ((ParseAtom H tok).1, Instance.nil, t) := by
  rw [Parse]; simp only [Next]; rfl

theorem fuel_enough (H : Host) (hH : H.eof ≠ Instance.nil) (f : Nat) :
    (∀ t : Tokenizer, 2 * t.length + 1 ≤ f → ∃ v e t', Parse H f t = some (v, e, t') ∧
        t'.length ≤ t.length ∧ (e = Instance.nil → t'.length < t.length)) ∧
    (∀ t : Tokenizer, 2 * t.length + 2 ≤ f → ∃ v e t', parseCons H f t = some (v, e, t') ∧
        t'.length ≤ t.length) ∧
    (∀ (tok : String) (t : Tokenizer), 2 * t.length + 2 ≤ f →
        ∃ v e t', parseMacro H f tok t = some (v, e, t') ∧ t'.length ≤ t.length) := by
  induction f with
  | zero => simp
  | succ f ih =>
    obtain ⟨ihP, ihC, ihM⟩ := ih
    refine ⟨?_, ?_, ?_⟩
    · intro t ht
      cases t with
      | nil =>
        rw [Parse_nil_tokens, if_pos hH]
        exact ⟨_, _, _, rfl, le_refl _, fun h => absurd h hH⟩
      | cons tok t =>
        rw [Parse_cons_tokens]
        simp only [List.length_cons] at ht ⊢
        split
        · obtain ⟨v, e, t', h, hl⟩ := ihC t (by omega)
          rw [h]; dsimp only
          split
          · exact ⟨_, _, _, rfl, by omega, by omega⟩
          · exact ⟨_, _, _, rfl, by omega, by omega⟩
        · split
          · exact ⟨_, _, _, rfl, by omega, by omega⟩
          · split
            · exact ⟨_, _, _, rfl, by omega, by omega⟩
            · split
              · obtain ⟨v, e, t', h, hl⟩ := ihM tok t (by omega)
                rw [h]; dsimp only
                split
                · exact ⟨_, _, _, rfl, by omega, by omega⟩
                · exact ⟨_, _, _, rfl, by omega, by omega⟩
              · split
                · exact ⟨_, _, _, rfl, by omega, by omega⟩
                · exact ⟨_, _, _, rfl, by omega, by omega⟩
    · intro t ht
      rw [parseCons]
      obtain ⟨car, e1, t1, h1, hl1, hs1⟩ := ihP t (by omega)
      rw [h1]; dsimp only
      split
      · exact ⟨_, _, _, rfl, hl1⟩
      · split
        · obtain ⟨cdr, e2, t2, h2, hl2, _⟩ := ihP t1 (by omega)
          rw [h2]; dsimp only
          split
          · exact ⟨_, _, _, rfl, by omega⟩
          · obtain ⟨x, e3, t3, h3, hl3, _⟩ := ihP t2 (by omega)
            rw [h3]; dsimp only
            split
            · exact ⟨_, _, _, rfl, by omega⟩
            · exact ⟨_, _, _, rfl, by omega⟩
        · split
          · exact ⟨_, _, _, rfl, hl1⟩
          · rename_i hnil
            have hnil' : e1 = Instance.nil := by simpa using hnil
            have := hs1 hnil'
            obtain ⟨cdr, e2, t2, h2, hl2⟩ := ihC t1 (by omega)
            rw [h2]; dsimp only
            split
            · exact ⟨_, _, _, rfl, by omega⟩
            · exact ⟨_, _, _, rfl, by omega⟩
    · intro tok t ht
      rw [parseMacro]
      obtain ⟨cdr, e1, t1, h1, hl1, hs1⟩ := ihP t (by omega)
      rw [h1]; dsimp only
      split
      · exact ⟨_, _, _, rfl, hl1⟩
      · split
        · split
          · exact ⟨_, _, _, rfl, hl1⟩
          · split
            · exact ⟨_, _, _, rfl, hl1⟩
            · exact ⟨_, _, _, rfl, hl1⟩
        · exact ⟨_, _, _, rfl, hl1⟩

theorem reMacro_empty : reMacro "" = false := by decide

theorem fuel_succ (H : Host) (f : Nat) :
    (∀ (t : Tokenizer) (r : Result), Parse H f t = some r → Parse H (f + 1) t = some r) ∧
    (∀ (t : Tokenizer) (r : Result), parseCons H f t = some r →
        parseCons H (f + 1) t = some r) ∧
    (∀ (tok : String) (t : Tokenizer) (r : Result), parseMacro H f tok t = some r →
        parseMacro H (f + 1) tok t = some r) := by
  induction f with
  | zero => simp [Parse, parseCons, parseMacro]
  | succ f ih =>
    obtain ⟨ihP, ihC, ihM⟩ := ih
    refine ⟨?_, ?_, ?_⟩
    · intro t r h
      cases t with
      | nil =>
        rw [Parse_nil_tokens, reMacro_empty] at h
        rw [Parse_nil_tokens, reMacro_empty]
        exact h
      | cons tok t =>
        rw [Parse_cons_tokens] at h
        rw [Parse_cons_tokens]
        by_cases h1 : tok = "("
        · simp only [h1, if_true] at h ⊢
          cases hc : parseCons H f t with
          | none => simp [hc] at h
          | some x => rw [hc] at h; rw [ihC _ _ hc]; exact h
        · simp only [h1, if_false] at h ⊢
          by_cases h2 : tok = ")"
          · simpa only [h2, if_true] using h
          · simp only [h2, if_false] at h ⊢
            by_cases h3 : tok = "."
            · simpa only [h3, if_true] using h
            · simp only [h3, if_false] at h ⊢
              by_cases h4 : reMacro tok = true
              · simp only [h4, if_true] at h ⊢
                cases hc : parseMacro H f tok t with
                | none => simp [hc] at h
                | some x => rw [hc] at h; rw [ihM _ _ _ hc]; exact h
              · simpa only [h4, if_false] using h
    · intro t r h
      rw [parseCons] at h
      rw [parseCons]
      cases h1 : Parse H f t with
      | none => simp [h1] at h
      | some x1 =>
        obtain ⟨car, e1, t1⟩ := x1
        rw [h1] at h; rw [ihP _ _ h1]
        dsimp only at h ⊢
        by_cases c1 : e1 = eop
        · simpa only [c1, if_true] using h
        · simp only [c1, if_false] at h ⊢
          by_cases c2 : e1 = bod
          · simp only [c2, if_true] at h ⊢
            cases h2 : Parse H f t1 with
            | none => simp [h2] at h
            | some x2 =>
              obtain ⟨cdr, e2, t2⟩ := x2
              rw [h2] at h; rw [ihP _ _ h2]
              dsimp only at h ⊢
              by_cases c3 : e2 ≠ Instance.nil
              · rw [if_pos c3] at h ⊢; exact h
              · rw [if_neg c3] at h ⊢
                cases h3 : Parse H f t2 with
                | none => simp [h3] at h
                | some x3 => rw [h3] at h; rw [ihP _ _ h3]; exact h
          · simp only [c2, if_false] at h ⊢
            by_cases c3 : e1 ≠ Instance.nil
            · rw [if_pos c3] at h ⊢; exact h
            · rw [if_neg c3] at h ⊢
              cases h2 : parseCons H f t1 with
              | none => simp [h2] at h
              | some x2 => rw [h2] at h; rw [ihC _ _ h2]; exact h
    · intro tok t r h
      rw [parseMacro] at h
      rw [parseMacro]
      cases h1 : Parse H f t with
      | none => simp [h1] at h
      | some x1 => rw [h1] at h; rw [ihP _ _ h1]; exact h

theorem Parse_fuel_le (H : Host) {f g : Nat} (hfg : f ≤ g) {t : Tokenizer} {r : Result}
    (h : Parse H f t = some r) : Parse H g t = some r := by
  induction hfg with
  | refl => exact h
  | step _ ih => exact (fuel_succ H _).1 _ _ ih

theorem parseCons_fuel_le (H : Host) {f g : Nat} (hfg : f ≤ g) {t : Tokenizer} {r : Result}
    (h : parseCons H f t = some r) : parseCons H g t = some r := by
  induction hfg with
  | refl => exact h
  | step _ ih => exact (fuel_succ H _).2.1 _ _ ih

/-- A top-level call returns, and more fuel does not change what it returns. -/
theorem ParseTop_total (H : Host) (hH : H.eof ≠ Instance.nil) (t : Tokenizer) :
    ∃ r, ParseTop H t = some r ∧ ∀ f, 2 * t.length + 2 ≤ f → Parse H f t = some r := by
  obtain ⟨v, e, t', h, _⟩ := (fuel_enough H hH (2 * t.length + 2)).1 t (by omega)
  exact ⟨_, h, fun f hf => Parse_fuel_le H hf h⟩

theorem ParseTop_of_Parse (H : Host) {f : Nat} {t : Tokenizer} {r : Result}
    (hH : H.eof ≠ Instance.nil) (h : Parse H f t = some r) : ParseTop H t = some r := by
  obtain ⟨r', h', hall⟩ := ParseTop_total H hH t
  have h1 := Parse_fuel_le H (Nat.le_max_left f (2 * t.length + 2)) h
  have h2 := hall _ (Nat.le_max_right f (2 * t.length + 2))
  rw [h1] at h2
  rw [h', h2]

/-! ## The parsing functions: tokens after a form -/

theorem Clean.ne_eof {H : Host} (hH : H.Distinct) {e : Instance} (h : Clean e) : e ≠ H.eof := by
  rintro rfl
  rcases h with h | h | h
  · exact hH.1 h
  · exact hH.2.1 h
  · exact hH.2.2 h

theorem frame (H : Host) (hH : H.Distinct) (rest : Tokenizer) (f : Nat) :
    (∀ (t : Tokenizer) (v e : Instance) (t' : Tokenizer), Parse H f t = some (v, e, t') →
        Clean e → Parse H f (t ++ rest) = some (v, e, t' ++ rest)) ∧
    (∀ (t : Tokenizer) (v e : Instance) (t' : Tokenizer), parseCons H f t = some (v, e, t') →
        Clean e → parseCons H f (t ++ rest) = some (v, e, t' ++ rest)) ∧
    (∀ (tok : String) (t : Tokenizer) (v e : Instance) (t' : Tokenizer),
        parseMacro H f tok t = some (v, e, t') →
        Clean e → parseMacro H f tok (t ++ rest) = some (v, e, t' ++ rest)) := by
  induction f with
  | zero => simp [Parse, parseCons, parseMacro]
  | succ f ih =>
    obtain ⟨ihP, ihC, ihM⟩ := ih
    refine ⟨?_, ?_, ?_⟩
    · intro t v e t' h hc
      cases t with
      | nil =>
        rw [Parse_nil_tokens, if_pos hH.1] at h
        simp only [Option.some.injEq, Prod.mk.injEq] at h
        exact absurd h.2.1.symm (hc.ne_eof hH)
      | cons tok t =>
        rw [Parse_cons_tokens] at h
        rw [List.cons_append, Parse_cons_tokens]
        by_cases h1 : tok = "("
        · simp only [h1, if_true] at h ⊢
          cases hp : parseCons H f t with
          | none => simp [hp] at h
          | some x =>
            obtain ⟨cons, err, t2⟩ := x
            rw [hp] at h
            dsimp only at h
            have he : err = e := by
              by_cases c : err ≠ Instance.nil
              · rw [if_pos c] at h; simp only [Option.some.injEq, Prod.mk.injEq] at h; exact h.2.1
              · rw [if_neg c] at h; simp only [Option.some.injEq, Prod.mk.injEq] at h; exact h.2.1
            rw [ihC _ _ _ _ hp (he ▸ hc)]
            dsimp only
            by_cases c : err ≠ Instance.nil
            · rw [if_pos c] at h ⊢; simp only [Option.some.injEq, Prod.mk.injEq] at h ⊢
              exact ⟨h.1, h.2.1, by rw [h.2.2]⟩
            · rw [if_neg c] at h ⊢; simp only [Option.some.injEq, Prod.mk.injEq] at h ⊢
              exact ⟨h.1, h.2.1, by rw [h.2.2]⟩
        · simp only [h1, if_false] at h ⊢
          by_cases h2 : tok = ")"
          · simp only [h2, if_true, Option.some.injEq, Prod.mk.injEq] at h ⊢
            exact ⟨h.1, h.2.1, by rw [h.2.2]⟩
          · simp only [h2, if_false] at h ⊢
            by_cases h3 : tok = "."
            · simp only [h3, if_true, Option.some.injEq, Prod.mk.injEq] at h ⊢
              exact ⟨h.1, h.2.1, by rw [h.2.2]⟩
            · simp only [h3, if_false] at h ⊢
              by_cases h4 : reMacro tok = true
              · simp only [h4, if_true] at h ⊢
                cases hp : parseMacro H f tok t with
                | none => simp [hp] at h
                | some x =>
                  obtain ⟨m, err, t2⟩ := x
                  rw [hp] at h
                  dsimp only at h
                  by_cases c : err ≠ Instance.nil
                  · rw [if_pos c] at h; simp only [Option.some.injEq, Prod.mk.injEq] at h
                    rw [ihM _ _ _ _ _ hp (h.2.1 ▸ hc)]
                    dsimp only
                    rw [if_pos c]; simp only [Option.some.injEq, Prod.mk.injEq]
                    exact ⟨h.1, h.2.1, by rw [h.2.2]⟩
                  · rw [if_neg c] at h; simp only [Option.some.injEq, Prod.mk.injEq] at h
                    rw [ihM _ _ _ _ _ hp (Or.inl (not_not.mp c))]
                    dsimp only
                    rw [if_neg c]; simp only [Option.some.injEq, Prod.mk.injEq]
                    exact ⟨h.1, h.2.1, by rw [h.2.2]⟩
              · rw [if_neg h4] at h ⊢
                by_cases c : (ParseAtom H tok).2 ≠ Instance.nil
                · rw [if_pos c] at h ⊢
                  simp only [Option.some.injEq, Prod.mk.injEq] at h ⊢
                  exact ⟨h.1, h.2.1, by rw [h.2.2]⟩
                · rw [if_neg c] at h ⊢; simp only [Option.some.injEq, Prod.mk.injEq] at h ⊢
                  exact ⟨h.1, h.2.1, by rw [h.2.2]⟩
    · intro t v e t' h hc
      rw [parseCons] at h
      rw [parseCons]
      cases h1 : Parse H f t with
      | none => simp [h1] at h
      | some x1 =>
        obtain ⟨car, e1, t1⟩ := x1
        rw [h1] at h
        dsimp only at h
        by_cases c1 : e1 = eop
        · rw [ihP _ _ _ _ h1 (Or.inr (Or.inl c1))]
          dsimp only
          rw [if_pos c1] at h ⊢; simp only [Option.some.injEq, Prod.mk.injEq] at h ⊢
          exact ⟨h.1, h.2.1, by rw [h.2.2]⟩
        · rw [if_neg c1] at h
          by_cases c2 : e1 = bod
          · rw [ihP _ _ _ _ h1 (Or.inr (Or.inr c2))]
            dsimp only
            rw [if_neg c1]
            rw [if_pos c2] at h ⊢
            cases h2 : Parse H f t1 with
            | none => simp [h2] at h
            | some x2 =>
              obtain ⟨cdr, e2, t2⟩ := x2
              rw [h2] at h
              dsimp only at h
              by_cases c3 : e2 ≠ Instance.nil
              · rw [if_pos c3] at h; simp only [Option.some.injEq, Prod.mk.injEq] at h
                rw [ihP _ _ _ _ h2 (h.2.1 ▸ hc)]
                dsimp only
                rw [if_pos c3]; simp only [Option.some.injEq, Prod.mk.injEq]
                exact ⟨h.1, h.2.1, by rw [h.2.2]⟩
              · rw [if_neg c3] at h
                rw [ihP _ _ _ _ h2 (Or.inl (not_not.mp c3))]
                dsimp only
                rw [if_neg c3]
                cases h3 : Parse H f t2 with
                | none => simp [h3] at h
                | some x3 =>
                  obtain ⟨x, e3, t3⟩ := x3
                  rw [h3] at h
                  dsimp only at h
                  by_cases c4 : e3 ≠ eop
                  · rw [if_pos c4] at h; simp only [Option.some.injEq, Prod.mk.injEq] at h
                    rw [ihP _ _ _ _ h3 (h.2.1 ▸ hc)]
                    dsimp only
                    rw [if_pos c4]; simp only [Option.some.injEq, Prod.mk.injEq]
                    exact ⟨h.1, h.2.1, by rw [h.2.2]⟩
                  · rw [if_neg c4] at h; simp only [Option.some.injEq, Prod.mk.injEq] at h
                    rw [ihP _ _ _ _ h3 (Or.inr (Or.inl (not_not.mp c4)))]
                    dsimp only
                    rw [if_neg c4]; simp only [Option.some.injEq, Prod.mk.injEq]
                    exact ⟨h.1, h.2.1, by rw [h.2.2]⟩
          · rw [if_neg c2] at h
            by_cases c3 : e1 ≠ Instance.nil
            · rw [if_pos c3] at h; simp only [Option.some.injEq, Prod.mk.injEq] at h
              rw [ihP _ _ _ _ h1 (h.2.1 ▸ hc)]
              dsimp only
              rw [if_neg c1, if_neg c2, if_pos c3]; simp only [Option.some.injEq, Prod.mk.injEq]
              exact ⟨h.1, h.2.1, by rw [h.2.2]⟩
            · rw [if_neg c3] at h
              rw [ihP _ _ _ _ h1 (Or.inl (not_not.mp c3))]
              dsimp only
              rw [if_neg c1, if_neg c2, if_neg c3]
              cases h2 : parseCons H f t1 with
              | none => simp [h2] at h
              | some x2 =>
                obtain ⟨cdr, e2, t2⟩ := x2
                rw [h2] at h
                dsimp only at h
                by_cases c4 : e2 ≠ Instance.nil
                · rw [if_pos c4] at h; simp only [Option.some.injEq, Prod.mk.injEq] at h
                  rw [ihC _ _ _ _ h2 (h.2.1 ▸ hc)]
                  dsimp only
                  rw [if_pos c4]; simp only [Option.some.injEq, Prod.mk.injEq]
                  exact ⟨h.1, h.2.1, by rw [h.2.2]⟩
                · rw [if_neg c4] at h; simp only [Option.some.injEq, Prod.mk.injEq] at h
                  rw [ihC _ _ _ _ h2 (Or.inl (not_not.mp c4))]
                  dsimp only
                  rw [if_neg c4]; simp only [Option.some.injEq, Prod.mk.injEq]
                  exact ⟨h.1, h.2.1, by rw [h.2.2]⟩
    · intro tok t v e t' h hc
      rw [parseMacro] at h
      rw [parseMacro]
      cases h1 : Parse H f t with
      | none => simp [h1] at h
      | some x1 =>
        obtain ⟨cdr, e1, t1⟩ := x1
        rw [h1] at h
        dsimp only at h
        by_cases c1 : e1 ≠ Instance.nil
        · rw [if_pos c1] at h; simp only [Option.some.injEq, Prod.mk.injEq] at h
          rw [ihP _ _ _ _ h1 (h.2.1 ▸ hc)]
          dsimp only
          rw [if_pos c1]; simp only [Option.some.injEq, Prod.mk.injEq]
          exact ⟨h.1, h.2.1, by rw [h.2.2]⟩
        · rw [if_neg c1] at h
          rw [ihP _ _ _ _ h1 (Or.inl (not_not.mp c1))]
          dsimp only
          rw [if_neg c1]
          by_cases a1 : reArray tok.toList = true
          · rw [if_pos a1] at h ⊢
            by_cases a2 : indexOfA tok.toList = 1
            · rw [if_pos a2] at h ⊢; simp only [Option.some.injEq, Prod.mk.injEq] at h ⊢
              exact ⟨h.1, h.2.1, by rw [h.2.2]⟩
            · rw [if_neg a2] at h ⊢
              rcases hp : ParseInt (List.drop 1 (List.take (indexOfA tok.toList) tok.toList)) 10 32
                with ⟨n, _ | err⟩
              · rw [hp] at h; simp only [Option.some.injEq, Prod.mk.injEq] at h ⊢
                exact ⟨h.1, h.2.1, by rw [h.2.2]⟩
              · rw [hp] at h; simp only [Option.some.injEq, Prod.mk.injEq] at h ⊢
                exact ⟨h.1, h.2.1, by rw [h.2.2]⟩
          · rw [if_neg a1] at h ⊢; simp only [Option.some.injEq, Prod.mk.injEq] at h ⊢
            exact ⟨h.1, h.2.1, by rw [h.2.2]⟩

/-! ## Lists -/

theorem Parse_framed (H : Host) (hH : H.Distinct) {e : List String} {v : Instance}
    (h : ParseTop H e = some (v, Instance.nil, [])) (X : Tokenizer) :
    Parse H (2 * e.length + 2) (e ++ X) = some (v, Instance.nil, X) := by
  simpa using (frame H hH X _).1 e v Instance.nil [] h (Or.inl rfl)

theorem parseCons_close (H : Host) (rest : Tokenizer) :
    parseCons H 2 (")" :: rest) = some (Instance.Null, Instance.nil, rest) := by
  rfl

theorem parseCons_step (H : Host) {f g : Nat} {t t1 t2 : Tokenizer} {car cdr : Instance}
    (h1 : Parse H f t = some (car, Instance.nil, t1))
    (h2 : parseCons H g t1 = some (cdr, Instance.nil, t2)) :
    parseCons H (max f g + 1) t = some (Instance.Cons car cdr, Instance.nil, t2) := by
  rw [parseCons, Parse_fuel_le H (le_max_left f g) h1]
  dsimp only
  rw [if_neg (by decide), if_neg (by decide), if_neg (by simp),
    parseCons_fuel_le H (le_max_right f g) h2]
  simp

theorem parseCons_dot (H : Host) {f : Nat} {t rest : Tokenizer} {w : Instance}
    (h : Parse H f t = some (w, Instance.nil, ")" :: rest)) :
    parseCons H (f + 2) ("." :: t) = some (w, Instance.nil, rest) := by
  rw [parseCons, Parse_cons_tokens]
  simp only [show ("." : String) ≠ "(" by decide, show ("." : String) ≠ ")" by decide, if_false,
    if_true]
  rw [Parse_fuel_le H (Nat.le_succ f) h]
  dsimp only
  rw [if_neg (by decide), if_neg (by simp), Parse_cons_tokens]
  simp

theorem parseCons_forms (H : Host) (hH : H.Distinct) (forms : List (List String × Instance))
    (hforms : ∀ p ∈ forms, ParseTop H p.1 = some (p.2, Instance.nil, []))
    {X t2 : Tokenizer} {w : Instance} {g : Nat}
    (hX : parseCons H g X = some (w, Instance.nil, t2)) :
    ∃ f, parseCons H f (formTokens forms ++ X) =
      some (chain (formValues forms) w, Instance.nil, t2) := by
  induction forms with
  | nil => exact ⟨g, by simpa [formTokens, formValues, chain] using hX⟩
  | cons p fs ih =>
    obtain ⟨f, hf⟩ := ih (fun q hq => hforms q (List.mem_cons_of_mem _ hq))
    have hp := Parse_framed H hH (hforms p (List.mem_cons_self _ _)) (formTokens fs ++ X)
    have := parseCons_step H hp hf
    exact ⟨_, by simpa [formTokens, formValues, chain] using this⟩

theorem Parse_open (H : Host) {f : Nat} {t t2 : Tokenizer} {v : Instance}
    (h : parseCons H f t = some (v, Instance.nil, t2)) (hH : H.eof ≠ Instance.nil) :
    ParseTop H ("(" :: t) = some (v, Instance.nil, t2) := by
  apply ParseTop_of_Parse H hH (f := f + 1)
  rw [Parse_cons_tokens, if_pos rfl, h]
  simp

/-- **C2.** A parenthesised sequence of forms parses to the right-nested chain of
their values ending in Null, in source order, and with a dot and a tail form
before the close-paren to the chain ending in the value of the tail (this
also with no form before the dot). Here a form is a token list that a
top-level call parses whole into a value; the tokens `rest` after the
close-paren are left in the tokenizer. `( 1 2 )` gives the list of Integer 1
and Integer 2, and `( 1 . 2 )` the pair of them. -/
theorem Parse_list_of_forms (H : Host) (hH : H.Distinct)
    (forms : List (List String × Instance))
    (hforms : ∀ p ∈ forms, ParseTop H p.1 = some (p.2, Instance.nil, []))
    (rest : Tokenizer) :
    ParseTop H ("(" :: formTokens forms ++ ")" :: rest) =
        some (chain (formValues forms) Instance.Null, Instance.nil, rest) ∧
    (∀ (tail : List String) (w : Instance), ParseTop H tail = some (w, Instance.nil, []) →
      ParseTop H ("(" :: formTokens forms ++ "." :: tail ++ ")" :: rest) =
        some (chain (formValues forms) w, Instance.nil, rest)) ∧
    ParseTop H ["(", "1", "2", ")"] =
        some (Instance.Cons (Instance.Integer 1) (Instance.Cons (Instance.Integer 2)
          Instance.Null), Instance.nil, []) ∧
    ParseTop H ["(", "1", ".", "2", ")"] =
        some (Instance.Cons (Instance.Integer 1) (Instance.Integer 2), Instance.nil, []) := by
  refine ⟨?_, ?_, rfl, rfl⟩
  · obtain ⟨f, hf⟩ := parseCons_forms H hH forms hforms (parseCons_close H rest)
    exact Parse_open H hf hH.1
  · intro tail w hw
    have h1 := Parse_framed H hH hw (")" :: rest)
    obtain ⟨f, hf⟩ := parseCons_forms H hH forms hforms (parseCons_dot H h1)
    have := Parse_open H hf hH.1
    simpa using this

theorem sampleHost_distinct : sampleHost.Distinct := by
  unfold Host.Distinct; decide

/-- Witness of C2: the list `( 1 ( a ) "s" )` and the dotted list `( 1 ( a ) "s" . b )`, each
followed by the token `x`. -/
theorem Parse_list_of_forms_witness :
    sampleHost.Distinct ∧
    (∀ p ∈ [(["1"], Instance.Integer 1),
        (["(", "a", ")"], Instance.Cons (Instance.Symbol "A") Instance.Null)],
      ParseTop sampleHost p.1 = some (p.2, Instance.nil, [])) ∧
    ParseTop sampleHost ["(", "1", "(", "a", ")", ")", "x"] =
      some (Instance.Cons (Instance.Integer 1)
        (Instance.Cons (Instance.Cons (Instance.Symbol "A") Instance.Null) Instance.Null),
        Instance.nil, ["x"]) ∧
    ParseTop sampleHost ["(", "1", "(", "a", ")", ".", "b", ")", "x"] =
      some (Instance.Cons (Instance.Integer 1)
        (Instance.Cons (Instance.Cons (Instance.Symbol "A") Instance.Null)
          (Instance.Symbol "B")), Instance.nil, ["x"]) :=
  ⟨sampleHost_distinct, by decide,
    (Parse_list_of_forms sampleHost sampleHost_distinct
      [(["1"], Instance.Integer 1),
        (["(", "a", ")"], Instance.Cons (Instance.Symbol "A") Instance.Null)]
      (by decide) ["x"]).1,
    (Parse_list_of_forms sampleHost sampleHost_distinct
      [(["1"], Instance.Integer 1),
        (["(", "a", ")"], Instance.Cons (Instance.Symbol "A") Instance.Null)]
      (by decide) ["x"]).2.1 ["b"] (Instance.Symbol "B") (by decide)⟩

/-! ## Atoms: the shape of the result -/

theorem ParseAtom_shape (H : Host) (tok : String) :
    (∃ n, ParseAtom H tok = (Instance.Integer n, Instance.nil)) ∨
    (∃ x, ParseAtom H tok = (Instance.Float x, Instance.nil)) ∨
    (∃ c, ParseAtom H tok = (Instance.Character c, Instance.nil)) ∨
    ParseAtom H tok = (Instance.String tok, Instance.nil) ∨
    ParseAtom H tok = (Instance.Null, Instance.nil) ∨
    (reSymbol tok.toList = true ∧
      ParseAtom H tok = (Instance.Symbol (ToUpper H tok), Instance.nil)) ∨
    ParseAtom H tok = (Instance.nil,
      Instance.ParseError (Instance.String tok) (Instance.Class Class.Object)) := by
  unfold ParseAtom
  dsimp only
  repeat' split
  all_goals simp_all

theorem upperRune_not_lower (H : Host) (c : Char) (hc : c.toNat < 128) :
    inRange 'a' 'z' (upperRune H c) = false := by
  unfold upperRune
  rw [if_pos hc]
  by_cases hl : inRange 'a' 'z' c = true
  · rw [if_pos hl]
    have h1 : 97 ≤ c.toNat ∧ c.toNat ≤ 122 := by simpa [inRange] using hl
    generalize c.toNat = n at h1 ⊢
    obtain ⟨h1, h2⟩ := h1
    interval_cases n <;> decide
  · rw [if_neg hl]
    simpa using hl

theorem symPunct_ascii (c : Char) (h : c ∈ symPunct) : c.toNat < 128 := by
  revert c
  decide

theorem isSymRest_ascii (c : Char) (h : isSymRest c = true) : c.toNat < 128 := by
  simp only [isSymRest, isAlpha, isDigit, inRange, Bool.or_eq_true, beq_iff_eq,
    decide_eq_true_eq, List.contains_eq_any_beq, List.any_eq_true] at h
  rcases h with (((h | h) | h) | h) | h
  · subst h; decide
  · rcases h with h | h <;> have := h.2 <;> simp at this <;> omega
  · have := h.2; simp at this; omega
  · subst h; decide
  · obtain ⟨x, hx, hxc⟩ := h
    have : c = x := by simpa using hxc
    subst this
    exact symPunct_ascii _ hx

theorem isAlpha_isSymRest (c : Char) (h : isAlpha c = true) : isSymRest c = true := by
  simp [isSymRest, h]

/-- The upper-cased text of a symbol token does not start with a rune other
than `:`, `&`, `|`, `1` followed by a lower-case ASCII letter. -/
theorem upper_symbol_ne (H : Host) (cs : List Char) (hs : reSymbol cs = true) (x y : Char)
    (rest : List Char) (hx : x ≠ ':' ∧ x ≠ '&' ∧ x ≠ '|' ∧ x ≠ '1')
    (hy : inRange 'a' 'z' y = true) : cs.map (upperRune H) ≠ x :: y :: rest := by
  intro hmap
  match cs, hs, hmap with
  | c0 :: c1 :: r, hs, hmap =>
    simp only [List.map_cons, List.cons.injEq] at hmap
    obtain ⟨h0, h1, -⟩ := hmap
    have key : isSymRest c1 = true → False := fun h => by
      have := upperRune_not_lower H c1 (isSymRest_ascii c1 h)
      rw [h1, hy] at this
      exact Bool.noConfusion this
    simp only [reSymbol, reDelimited, plus, Bool.or_eq_true, Bool.and_eq_true, beq_iff_eq,
      List.all_cons, List.isEmpty_cons, List.cons.injEq] at hs
    rcases hs with ((((((hs | hs) | hs) | hs) | hs) | hs) | hs) | hs
    · rcases hs.1 with h | h
      · subst h; exact hx.1 h0.symm
      · subst h; exact hx.2.1 h0.symm
    · have := hs.1.1.1; subst this; exact hx.2.2.1 h0.symm
    · simp at hs
    · simp at hs
    · have := hs.1; subst this; exact hx.2.2.2 h0.symm
    · have := hs.1; subst this; exact hx.2.2.2 h0.symm
    · exact key hs.2.1
    · simp at hs

theorem ParseAtom_value_not_sentinel (H : Host) (tok : String) :
    (ParseAtom H tok).1 ≠ eop ∧ (ParseAtom H tok).1 ≠ bod := by
  rcases ParseAtom_shape H tok with ⟨n, h⟩ | ⟨x, h⟩ | ⟨c, h⟩ | h | h | ⟨hs, h⟩ | h
  · rw [h]; simp [eop, bod]
  · rw [h]; simp [eop, bod]
  · rw [h]; simp [eop, bod]
  · rw [h]; simp [eop, bod]
  · rw [h]; simp [eop, bod]
  · rw [h]
    constructor
    · intro he
      have := congrArg String.toList (Instance.Symbol.inj he)
      exact upper_symbol_ne H _ hs 'E' 'n' _ (by decide) (by decide) this
    · intro he
      have := congrArg String.toList (Instance.Symbol.inj he)
      exact upper_symbol_ne H _ hs 'B' 'e' _ (by decide) (by decide) this
  · rw [h]; simp [eop, bod]

theorem ParseAtom_cond (H : Host) (tok : String) :
    (ParseAtom H tok).2 = Instance.nil ∨
    ParseAtom H tok = (Instance.nil,
      Instance.ParseError (Instance.String tok) (Instance.Class Class.Object)) := by
  rcases ParseAtom_shape H tok with ⟨n, h⟩ | ⟨x, h⟩ | ⟨c, h⟩ | h | h | ⟨hs, h⟩ | h
  all_goals simp [h]

/-! ## Sentinels -/

theorem NoLeak.of_sub {t t1 : Tokenizer} {v e : Instance} {t2 : Tokenizer} {v' : Instance}
    (h : NoLeak t1 (v, e, t2)) (hs : t1 <:+ t) (hv : v' ≠ eop ∧ v' ≠ bod) :
    NoLeak t (v', e, t2) :=
  ⟨hv, fun he => (h.2.1 he).trans hs, fun he => (h.2.2.1 he).trans hs, h.2.2.2.trans hs⟩

theorem nil_not_sentinel : Instance.nil ≠ eop ∧ Instance.nil ≠ bod := by
  constructor <;> simp [eop, bod]

theorem noLeak (H : Host) (hH : H.Distinct) (f : Nat) :
    (∀ (t : Tokenizer) (r : Result), Parse H f t = some r → NoLeak t r) ∧
    (∀ (t : Tokenizer) (r : Result), parseCons H f t = some r → NoLeak t r) ∧
    (∀ (tok : String) (t : Tokenizer) (r : Result), parseMacro H f tok t = some r →
        NoLeak t r) := by
  induction f with
  | zero => simp [Parse, parseCons, parseMacro]
  | succ f ih =>
    obtain ⟨ihP, ihC, ihM⟩ := ih
    refine ⟨?_, ?_, ?_⟩
    · intro t r h
      cases t with
      | nil =>
        rw [Parse_nil_tokens, if_pos hH.1] at h
        cases h
        exact ⟨nil_not_sentinel, fun he => absurd he hH.2.1, fun he => absurd he hH.2.2,
          List.suffix_refl _⟩
      | cons tok t =>
        rw [Parse_cons_tokens] at h
        have hsub : t <:+ tok :: t := List.suffix_cons _ _
        split at h
        · rename_i h1
          cases hp : parseCons H f t with
          | none => simp [hp] at h
          | some x =>
            obtain ⟨cons, err, t2⟩ := x
            have hx := ihC _ _ hp
            rw [hp] at h
            dsimp only at h
            split at h
            · cases h; exact hx.of_sub hsub nil_not_sentinel
            · cases h; exact hx.of_sub hsub hx.1
        · split at h
          · rename_i h2
            cases h
            exact ⟨nil_not_sentinel, fun _ => h2 ▸ List.suffix_refl _, fun he => by simp [eop, bod] at he,
              hsub⟩
          · split at h
            · rename_i h3
              cases h
              exact ⟨nil_not_sentinel, fun he => by simp [eop, bod] at he, fun _ => h3 ▸ List.suffix_refl _,
                hsub⟩
            · split at h
              · cases hp : parseMacro H f tok t with
                | none => simp [hp] at h
                | some x =>
                  obtain ⟨m, err, t2⟩ := x
                  have hx := ihM _ _ _ hp
                  rw [hp] at h
                  dsimp only at h
                  split at h
                  · cases h; exact hx.of_sub hsub nil_not_sentinel
                  · rename_i hn
                    cases h
                    refine ⟨hx.1, fun he => ?_, fun he => ?_, hx.2.2.2.trans hsub⟩
                    · simp [eop] at he
                    · simp [bod] at he
              · split at h
                · cases h
                  refine ⟨nil_not_sentinel, fun he => ?_, fun he => ?_, hsub⟩
                  · rcases ParseAtom_cond H tok with hc | hc
                    · rw [hc] at he; simp [eop] at he
                    · rw [hc] at he; simp [eop] at he
                  · rcases ParseAtom_cond H tok with hc | hc
                    · rw [hc] at he; simp [bod] at he
                    · rw [hc] at he; simp [bod] at he
                · cases h
                  refine ⟨ParseAtom_value_not_sentinel H tok, fun he => ?_, fun he => ?_, hsub⟩
                  · simp [eop] at he
                  · simp [bod] at he
    · intro t r h
      rw [parseCons] at h
      cases h1 : Parse H f t with
      | none => simp [h1] at h
      | some x1 =>
        obtain ⟨car, e1, t1⟩ := x1
        have hx1 := ihP _ _ h1
        rw [h1] at h
        dsimp only at h
        split at h
        · cases h
          refine ⟨by simp [eop, bod], fun he => ?_, fun he => ?_, hx1.2.2.2⟩
          · simp [eop] at he
          · simp [bod] at he
        · split at h
          · cases h2 : Parse H f t1 with
            | none => simp [h2] at h
            | some x2 =>
              obtain ⟨cdr, e2, t2⟩ := x2
              have hx2 := ihP _ _ h2
              rw [h2] at h
              dsimp only at h
              split at h
              · cases h; exact hx2.of_sub hx1.2.2.2 nil_not_sentinel
              · cases h3 : Parse H f t2 with
                | none => simp [h3] at h
                | some x3 =>
                  obtain ⟨x, e3, t3⟩ := x3
                  have hx3 := ihP _ _ h3
                  rw [h3] at h
                  dsimp only at h
                  have hsub2 : t2 <:+ t := hx2.2.2.2.trans hx1.2.2.2
                  split at h
                  · cases h; exact hx3.of_sub hsub2 nil_not_sentinel
                  · cases h
                    refine ⟨hx2.1, fun he => ?_, fun he => ?_, hx3.2.2.2.trans hsub2⟩
                    · simp [eop] at he
                    · simp [bod] at he
          · split at h
            · cases h; exact hx1.of_sub (List.suffix_refl _) nil_not_sentinel
            · cases h2 : parseCons H f t1 with
              | none => simp [h2] at h
              | some x2 =>
                obtain ⟨cdr, e2, t2⟩ := x2
                have hx2 := ihC _ _ h2
                rw [h2] at h
                dsimp only at h
                split at h
                · cases h; exact hx2.of_sub hx1.2.2.2 nil_not_sentinel
                · cases h
                  refine ⟨by simp [eop, bod], fun he => ?_, fun he => ?_,
                    hx2.2.2.2.trans hx1.2.2.2⟩
                  · simp [eop] at he
                  · simp [bod] at he
    · intro tok t r h
      rw [parseMacro] at h
      cases h1 : Parse H f t with
      | none => simp [h1] at h
      | some x1 =>
        obtain ⟨cdr, e1, t1⟩ := x1
        have hx1 := ihP _ _ h1
        rw [h1] at h
        dsimp only at h
        have hv : ∀ a b : Instance, Instance.Cons a b ≠ eop ∧ Instance.Cons a b ≠ bod :=
          fun a b => by simp [eop, bod]
        have hp1 : ∀ (a b : Instance) (P : Prop), Instance.ParseError a b = eop → P :=
          fun a b P he => by simp [eop] at he
        have hp2 : ∀ (a b : Instance) (P : Prop), Instance.ParseError a b = bod → P :=
          fun a b P he => by simp [bod] at he
        have hn1 : ∀ P : Prop, Instance.nil = eop → P := fun P he => by simp [eop] at he
        have hn2 : ∀ P : Prop, Instance.nil = bod → P := fun P he => by simp [bod] at he
        split at h
        · cases h; exact hx1.of_sub (List.suffix_refl _) nil_not_sentinel
        · split at h
          · split at h
            · cases h; exact ⟨hv _ _, hn1 _, hn2 _, hx1.2.2.2⟩
            · split at h
              · cases h
                exact ⟨nil_not_sentinel, hp1 _ _ _, hp2 _ _ _, hx1.2.2.2⟩
              · cases h; exact ⟨hv _ _, hn1 _, hn2 _, hx1.2.2.2⟩
          · cases h; exact ⟨hv _ _, hn1 _, hn2 _, hx1.2.2.2⟩

theorem ParseTop_close (H : Host) (t : Tokenizer) :
    ParseTop H (")" :: t) = some (Instance.nil, eop, t) := by
  show Parse H (2 * t.length + 3 + 1) _ = _
  rw [Parse_cons_tokens]
  rfl

theorem ParseTop_dot (H : Host) (t : Tokenizer) :
    ParseTop H ("." :: t) = some (Instance.nil, bod, t) := by
  show Parse H (2 * t.length + 3 + 1) _ = _
  rw [Parse_cons_tokens]
  rfl

/-- **C4**, counterexample. A top-level call does return a sentinel in its
condition slot: `End Of Parentheses` on a stray `)` and on the list `( 1 . )`,
`Begin Of Dot` on a stray `.`. -/
theorem Parse_sentinel_leak :
    ParseTop sampleHost [")"] = some (Instance.nil, eop, []) ∧
    ParseTop sampleHost ["."] = some (Instance.nil, bod, []) ∧
    ParseTop sampleHost ["(", "1", ".", ")"] = some (Instance.nil, eop, []) := by
  decide

/-! ## The two slots of a result -/

theorem Parse_not_both (H : Host) (f : Nat) (t : Tokenizer) (v e : Instance) (t' : Tokenizer)
    (h : Parse H f t = some (v, e, t')) : v = Instance.nil ∨ e = Instance.nil := by
  cases f with
  | zero => simp [Parse] at h
  | succ f =>
    rw [Parse] at h
    revert h
    repeat' split
    all_goals intro h
    all_goals first
      | (cases h; first | exact Or.inl rfl | exact Or.inr rfl)
      | (simp only [Option.some.injEq, Prod.mk.injEq] at h
         obtain ⟨rfl, rfl, -⟩ := h
         simp_all)
      | simp at h

/-- **C1.** The two slots of a result can both be empty: on the tokens
`( . 2 3 )` the list helper finds the form `3` where the close-paren should
be and returns the condition slot of that call, which is empty, with no value;
the top-level call returns neither a value nor a condition and leaves `)`. -/
theorem Parse_neither_slot (H : Host) :
    ParseTop H ["(", ".", "2", "3", ")"] = some (Instance.nil, Instance.nil, [")"]) :=
  rfl

/-- **C3.** On the tokens `( 1 . 2 3 )` the form after the dot is followed by the
form `3` and not by a close-paren, and the call returns a value and no
condition: the pair of Integer 1 and an empty cdr. On `( . 2 3 )` it returns
neither. -/
theorem Parse_dot_without_close (H : Host) :
    ParseTop H ["(", "1", ".", "2", "3", ")"] =
      some (Instance.Cons (Instance.Integer 1) Instance.nil, Instance.nil, [")"]) ∧
    ParseTop H ["(", ".", "2", "3", ")"] = some (Instance.nil, Instance.nil, [")"]) :=
  ⟨rfl, rfl⟩

/-! ## `strconv` -/

theorem digitVal_of_inRange_digit (c : Char) (h : inRange '0' '9' c = true) :
    digitVal c = some (c.toNat - 48) := by
  simp [digitVal, h]

theorem foldl_value_ge (base : Nat) (hb : 1 ≤ base) (ds : List Char) (acc : Nat) :
    acc ≤ ds.foldl (fun a c => a * base + (digitVal c).getD 0) acc := by
  induction ds generalizing acc with
  | nil => exact le_refl _
  | cons c cs ih =>
    simp only [List.foldl_cons]
    refine le_trans ?_ (ih _)
    nlinarith

theorem parseUintLoop_exact (base maxVal : Nat) (hb : 1 ≤ base) (hmax : maxVal < 2 ^ 64)
    (ds : List Char) (acc : Nat) (hv : ∀ c ∈ ds, ValidDigit base c)
    (hfit : ds.foldl (fun a c => a * base + (digitVal c).getD 0) acc ≤ maxVal) :
    parseUintLoop base ((2 ^ 64 - 1) / base + 1) maxVal ds acc =
      (ds.foldl (fun a c => a * base + (digitVal c).getD 0) acc, none) := by
  induction ds generalizing acc with
  | nil => rfl
  | cons c cs ih =>
    obtain ⟨d, hd, hdb⟩ := hv c (List.mem_cons_self _ _)
    simp only [List.foldl_cons, hd, Option.getD_some] at hfit ⊢
    have hge := foldl_value_ge base hb cs (acc * base + d)
    have h1 : acc * base + d ≤ maxVal := le_trans hge hfit
    have h2 : acc * base ≤ 2 ^ 64 - 1 := by omega
    have h3 : acc ≤ (2 ^ 64 - 1) / base := (Nat.le_div_iff_mul_le (by omega)).2 h2
    rw [parseUintLoop]
    simp only [hd]
    rw [if_neg (by omega), if_neg (by omega)]
    have e1 : acc * base % 2 ^ 64 = acc * base := Nat.mod_eq_of_lt (by omega)
    have e2 : (acc * base + d) % 2 ^ 64 = acc * base + d := Nat.mod_eq_of_lt (by omega)
    simp only [e1, e2]
    rw [if_neg (by omega)]
    exact ih _ (fun c hc => hv c (List.mem_cons_of_mem _ hc)) hfit

theorem validDigit_dec (c : Char) (h : isDigit c = true) : ValidDigit 10 c := by
  have h' : inRange '0' '9' c = true := h
  refine ⟨c.toNat - 48, digitVal_of_inRange_digit c h', ?_⟩
  simp [inRange] at h'
  omega

theorem validDigit_bin (c : Char) (h : isBinDigit c = true) : ValidDigit 2 c := by
  have h0 : 48 ≤ c.toNat ∧ c.toNat ≤ 49 := by simpa [isBinDigit, inRange] using h
  have h' : inRange '0' '9' c = true := by simp [inRange]; omega
  exact ⟨c.toNat - 48, digitVal_of_inRange_digit c h', by omega⟩

theorem validDigit_oct (c : Char) (h : isOctDigit c = true) : ValidDigit 8 c := by
  have h0 : 48 ≤ c.toNat ∧ c.toNat ≤ 55 := by simpa [isOctDigit, inRange] using h
  have h' : inRange '0' '9' c = true := by simp [inRange]; omega
  exact ⟨c.toNat - 48, digitVal_of_inRange_digit c h', by omega⟩

theorem validDigit_hex (c : Char) (h : isHexDigit c = true) : ValidDigit 16 c := by
  simp only [isHexDigit, Bool.or_eq_true] at h
  rcases h with (h | h) | h
  · have h0 : 48 ≤ c.toNat ∧ c.toNat ≤ 57 := by simpa [inRange] using h
    exact ⟨c.toNat - 48, digitVal_of_inRange_digit c h, by omega⟩
  · have h0 : 65 ≤ c.toNat ∧ c.toNat ≤ 70 := by simpa [inRange] using h
    have n1 : inRange '0' '9' c = false := by simp [inRange]; omega
    have n2 : inRange 'a' 'z' c = false := by simp [inRange]; omega
    have n3 : inRange 'A' 'Z' c = true := by simp [inRange]; omega
    exact ⟨c.toNat - 65 + 10, by simp [digitVal, n1, n2, n3], by omega⟩
  · have h0 : 97 ≤ c.toNat ∧ c.toNat ≤ 102 := by simpa [inRange] using h
    have n1 : inRange '0' '9' c = false := by simp [inRange]; omega
    have n2 : inRange 'a' 'z' c = true := by simp [inRange]; omega
    exact ⟨c.toNat - 97 + 10, by simp [digitVal, n1, n2], by omega⟩

theorem ValidDigit.not_sign {base : Nat} {c : Char} (h : ValidDigit base c) :
    c ≠ '+' ∧ c ≠ '-' := by
  obtain ⟨d, hd, -⟩ := h
  constructor <;> rintro rfl <;> simp [digitVal, inRange] at hd

theorem wrap64_of_inInt64 (n : Int) (h : InInt64 n) : wrap64 n = n := by
  unfold wrap64
  obtain ⟨h1, h2⟩ := h
  rw [Int.emod_eq_of_lt (by omega) (by omega)]
  omega

theorem wrap64_neg_wrap64 (un : Nat) (h : un ≤ 2 ^ 63) :
    wrap64 (-(wrap64 (un : Int))) = -(un : Int) := by
  rcases Nat.lt_or_ge un (2 ^ 63) with h1 | h1
  · have e : wrap64 (un : Int) = un := wrap64_of_inInt64 _ ⟨by omega, by omega⟩
    rw [e]
    exact wrap64_of_inInt64 _ ⟨by omega, by omega⟩
  · have : un = 2 ^ 63 := le_antisymm h h1
    subst this
    decide

theorem ParseUint_exact (base : Nat) (hb : 1 ≤ base) (ds : List Char) (hne : ds ≠ [])
    (hv : ∀ c ∈ ds, ValidDigit base c) (hfit : digitsValue base ds ≤ 2 ^ 64 - 1) :
    ParseUint ds base 64 = (digitsValue base ds, none) := by
  unfold ParseUint
  rw [if_neg hne]
  exact parseUintLoop_exact base _ hb (by norm_num) ds 0 hv hfit

/-- What `ParseInt` makes of the unsigned value when `ParseUint` reports no
error. -/
theorem ParseInt_of_ParseUint (c : Char) (cs : List Char) (base un : Nat)
    (hU : ParseUint (if c == '+' ∨ c == '-' then cs else c :: cs) base 64 = (un, none)) :
    ParseInt (c :: cs) base 64 =
      if (c == '-') = false ∧ 2 ^ 63 ≤ un then
        (((2 ^ 63 : Nat) : Int) - 1, some NumError.outOfRange)
      else if (c == '-') = true ∧ 2 ^ 63 < un then
        (-((2 ^ 63 : Nat) : Int), some NumError.outOfRange)
      else
        (if (c == '-') = true then wrap64 (-(wrap64 (un : Int))) else wrap64 (un : Int),
          none) := by
  unfold ParseInt
  simp only [hU]

theorem ParseInt_pos (c : Char) (cs : List Char) (base un : Nat)
    (hU : ParseUint (if c == '+' ∨ c == '-' then cs else c :: cs) base 64 = (un, none))
    (c1 : (c == '-') = false) (hlt : un < 2 ^ 63) :
    ParseInt (c :: cs) base 64 = ((un : Int), none) := by
  rw [ParseInt_of_ParseUint c cs base un hU]
  have n1 : ¬ ((c == '-') = false ∧ 2 ^ 63 ≤ un) := fun h => absurd h.2 (by omega)
  have n2 : ¬ ((c == '-') = true ∧ 2 ^ 63 < un) := fun h => by
    rw [c1] at h; exact Bool.noConfusion h.1
  rw [if_neg n1, if_neg n2, c1]
  rw [if_neg (by decide), wrap64_of_inInt64 _ ⟨by omega, by omega⟩]

theorem ParseInt_neg (c : Char) (cs : List Char) (base un : Nat)
    (hU : ParseUint (if c == '+' ∨ c == '-' then cs else c :: cs) base 64 = (un, none))
    (c1 : (c == '-') = true) (hle : un ≤ 2 ^ 63) :
    ParseInt (c :: cs) base 64 = (-(un : Int), none) := by
  rw [ParseInt_of_ParseUint c cs base un hU]
  have n1 : ¬ ((c == '-') = false ∧ 2 ^ 63 ≤ un) := fun h => by
    rw [c1] at h; exact Bool.noConfusion h.1
  have n2 : ¬ ((c == '-') = true ∧ 2 ^ 63 < un) := fun h => absurd h.2 (by omega)
  rw [if_neg n1, if_neg n2, if_pos c1, wrap64_neg_wrap64 _ hle]

theorem ParseInt_exact (base : Nat) (hb : 1 ≤ base) (sign ds : List Char) (hs : IsSign sign)
    (hne : ds ≠ []) (hv : ∀ c ∈ ds, ValidDigit base c)
    (hr : InInt64 (signedValue base sign ds)) :
    ParseInt (sign ++ ds) base 64 = (signedValue base sign ds, none) := by
  obtain ⟨hr1, hr2⟩ := hr
  rcases hs with rfl | rfl | rfl
  · have e1 : signedValue base [] ds = (digitsValue base ds : Int) := by
      simp [signedValue]
    rw [e1] at hr1 hr2 ⊢
    have hu := ParseUint_exact base hb ds hne hv (by omega)
    match ds, hne, hv, hu with
    | c :: cs, _, hv, hu =>
      have hc := (hv c (List.mem_cons_self _ _)).not_sign
      have c1 : (c == '-') = false := by simpa using hc.2
      have c2 : (c == '+') = false := by simpa using hc.1
      refine ParseInt_pos c cs base _ ?_ c1 (by omega)
      rw [if_neg (by simp [c1, c2])]
      exact hu
  · have e1 : signedValue base ['+'] ds = (digitsValue base ds : Int) := by
      simp [signedValue]
    rw [e1] at hr1 hr2 ⊢
    have hu := ParseUint_exact base hb ds hne hv (by omega)
    refine ParseInt_pos '+' ds base _ ?_ (by decide) (by omega)
    rw [if_pos (Or.inl (by decide))]
    exact hu
  · have e1 : signedValue base ['-'] ds = -(digitsValue base ds : Int) := by
      simp [signedValue]
    rw [e1] at hr1 hr2 ⊢
    have hu := ParseUint_exact base hb ds hne hv (by omega)
    refine ParseInt_neg '-' ds base _ ?_ (by decide) (by omega)
    rw [if_pos (Or.inr (by decide))]
    exact hu

/-! ## Atoms: integers -/

theorem dropSign_append (sign ds : List Char) (hs : IsSign sign) (hne : ds ≠ [])
    (hd : ∀ c ∈ ds, isSign c = false) : dropSign (sign ++ ds) = ds := by
  rcases hs with rfl | rfl | rfl
  · match ds, hne, hd with
    | c :: cs, _, hd =>
      simp [dropSign, hd c (List.mem_cons_self _ _)]
  · rfl
  · rfl

theorem ValidDigit.isSign_false {base : Nat} {c : Char} (h : ValidDigit base c) :
    isSign c = false := by
  have := h.not_sign
  simp [isSign, this.1, this.2]

theorem plus_of_all (p : Char → Bool) (ds : List Char) (hne : ds ≠ [])
    (hp : ∀ c ∈ ds, p c = true) : plus p ds = true := by
  cases ds with
  | nil => exact absurd rfl hne
  | cons c cs => simpa [plus] using hp

theorem reDecimal_hash (r : List Char) : reDecimal ('#' :: r) = false := by
  simp [reDecimal, dropSign, plus, isSign, isDigit, inRange]

theorem ParseAtom_decimal (H : Host) (cs : List Char) (h : reDecimal cs = true) :
    ParseAtom H (String.mk cs) = (Instance.Integer (ParseInt cs 10 64).1, Instance.nil) := by
  unfold ParseAtom
  simp [h]

theorem ParseAtom_bin (H : Host) (l : Char) (r : List Char) (hl : l = 'b' ∨ l = 'B')
    (hp : plus isBinDigit (dropSign r) = true) :
    ParseAtom H (String.mk ('#' :: l :: r)) =
      (Instance.Integer (ParseInt r 2 64).1, Instance.nil) := by
  unfold ParseAtom
  rcases hl with rfl | rfl <;> simp [reDecimal_hash, reRadix, hp]

theorem ParseAtom_oct (H : Host) (l : Char) (r : List Char) (hl : l = 'o' ∨ l = 'O')
    (hp : plus isOctDigit (dropSign r) = true) :
    ParseAtom H (String.mk ('#' :: l :: r)) =
      (Instance.Integer (ParseInt r 8 64).1, Instance.nil) := by
  unfold ParseAtom
  rcases hl with rfl | rfl <;> simp [reDecimal_hash, reRadix, hp]

theorem ParseAtom_hex (H : Host) (l : Char) (r : List Char) (hl : l = 'x' ∨ l = 'X')
    (hp : plus isHexDigit (dropSign r) = true) :
    ParseAtom H (String.mk ('#' :: l :: r)) =
      (Instance.Integer (ParseInt r 16 64).1, Instance.nil) := by
  unfold ParseAtom
  rcases hl with rfl | rfl <;> simp [reDecimal_hash, reRadix, hp]

theorem ParseAtom_signed_decimal (H : Host) (sign ds : List Char) (hs : IsSign sign)
    (hne : ds ≠ []) (hd : ∀ c ∈ ds, isDigit c = true)
    (hr : InInt64 (signedValue 10 sign ds)) :
    ParseAtom H (String.mk (sign ++ ds)) =
      (Instance.Integer (signedValue 10 sign ds), Instance.nil) := by
  have hv : ∀ c ∈ ds, ValidDigit 10 c := fun c hc => validDigit_dec c (hd c hc)
  have h1 : reDecimal (sign ++ ds) = true := by
    unfold reDecimal
    rw [dropSign_append sign ds hs hne (fun c hc => (hv c hc).isSign_false)]
    exact plus_of_all _ ds hne hd
  rw [ParseAtom_decimal H _ h1, ParseInt_exact 10 (by norm_num) sign ds hs hne hv hr]

theorem radix_body (p : Char → Bool) (base : Nat) (sign ds : List Char) (hs : IsSign sign)
    (hne : ds ≠ []) (hd : ∀ c ∈ ds, p c = true) (hp : ∀ c, p c = true → ValidDigit base c) :
    plus p (dropSign (sign ++ ds)) = true := by
  rw [dropSign_append sign ds hs hne (fun c hc => (hp c (hd c hc)).isSign_false)]
  exact plus_of_all _ ds hne hd

/-- **C5**, counterexample. The token of the nineteen digits 9223372036854775808
denotes two to the 63rd, and is read as the Integer 9223372036854775807:
`strconv.ParseInt` replaces a value outside of `int64` by the nearest bound,
and the reader drops the range error. -/
theorem ParseAtom_integer_saturates :
    signedValue 10 [] "9223372036854775808".toList = 9223372036854775808 ∧
    ParseAtom sampleHost "9223372036854775808" =
      (Instance.Integer 9223372036854775807, Instance.nil) := by
  decide

/-- **C5**, amended. A token that is an optional sign followed by one or more
digits, alone in radix 10 or after `#b`/`#B`, `#o`/`#O`, `#x`/`#X` in radix 2,
8, 16, and whose value lies in the range of `int64`, is read as the Integer of
exactly that value, with no condition. `#xFF`, `#o377` and `#b11111111` all
give Integer 255. -/
theorem ParseAtom_integer_exact (H : Host) (sign ds : List Char) (hs : IsSign sign)
    (hne : ds ≠ []) :
    ((∀ c ∈ ds, isDigit c = true) → InInt64 (signedValue 10 sign ds) →
      ParseAtom H (String.mk (sign ++ ds)) =
        (Instance.Integer (signedValue 10 sign ds), Instance.nil)) ∧
    (∀ l : Char, l = 'b' ∨ l = 'B' → (∀ c ∈ ds, isBinDigit c = true) →
      InInt64 (signedValue 2 sign ds) →
      ParseAtom H (String.mk ('#' :: l :: (sign ++ ds))) =
        (Instance.Integer (signedValue 2 sign ds), Instance.nil)) ∧
    (∀ l : Char, l = 'o' ∨ l = 'O' → (∀ c ∈ ds, isOctDigit c = true) →
      InInt64 (signedValue 8 sign ds) →
      ParseAtom H (String.mk ('#' :: l :: (sign ++ ds))) =
        (Instance.Integer (signedValue 8 sign ds), Instance.nil)) ∧
    (∀ l : Char, l = 'x' ∨ l = 'X' → (∀ c ∈ ds, isHexDigit c = true) →
      InInt64 (signedValue 16 sign ds) →
      ParseAtom H (String.mk ('#' :: l :: (sign ++ ds))) =
        (Instance.Integer (signedValue 16 sign ds), Instance.nil)) ∧
    ParseAtom H "#xFF" = (Instance.Integer 255, Instance.nil) ∧
    ParseAtom H "#o377" = (Instance.Integer 255, Instance.nil) ∧
    ParseAtom H "#b11111111" = (Instance.Integer 255, Instance.nil) := by
  refine ⟨ParseAtom_signed_decimal H sign ds hs hne, ?_, ?_, ?_, rfl, rfl, rfl⟩
  · intro l hl hd hr
    rw [ParseAtom_bin H l _ hl (radix_body _ 2 sign ds hs hne hd validDigit_bin),
      ParseInt_exact 2 (by norm_num) sign ds hs hne (fun c hc => validDigit_bin c (hd c hc)) hr]
  · intro l hl hd hr
    rw [ParseAtom_oct H l _ hl (radix_body _ 8 sign ds hs hne hd validDigit_oct),
      ParseInt_exact 8 (by norm_num) sign ds hs hne (fun c hc => validDigit_oct c (hd c hc)) hr]
  · intro l hl hd hr
    rw [ParseAtom_hex H l _ hl (radix_body _ 16 sign ds hs hne hd validDigit_hex),
      ParseInt_exact 16 (by norm_num) sign ds hs hne (fun c hc => validDigit_hex c (hd c hc)) hr]

/-- Witness of C5 as amended: the tokens `-42` and `#X-7f`. -/
theorem ParseAtom_integer_exact_witness :
    IsSign ['-'] ∧
    ParseAtom sampleHost "-42" = (Instance.Integer (-42), Instance.nil) ∧
    ParseAtom sampleHost "#X-7f" = (Instance.Integer (-127), Instance.nil) :=
  ⟨Or.inr (Or.inr rfl),
    (ParseAtom_integer_exact sampleHost ['-'] ['4', '2'] (Or.inr (Or.inr rfl)) (by decide)).1
      (by decide) (by unfold InInt64; decide),
    (ParseAtom_integer_exact sampleHost ['-'] ['7', 'f'] (Or.inr (Or.inr rfl))
      (by decide)).2.2.2.1 'X' (Or.inr rfl) (by decide) (by unfold InInt64; decide)⟩

/-! ## Atoms: symbols -/

theorem ParseAtom_nonnumeric (H : Host) (cs : List Char) (h : NonNumericHead cs) :
    ParseAtom H (String.mk cs) =
      if reDelimited '"' cs then (Instance.String (String.mk cs), Instance.nil)
      else if String.mk cs = "nil" then (Instance.Null, Instance.nil)
      else if reSymbol cs then (Instance.Symbol (ToUpper H (String.mk cs)), Instance.nil)
      else (Instance.nil,
        Instance.ParseError (Instance.String (String.mk cs)) (Instance.Class Class.Object)) := by
  cases cs with
  | nil => rfl
  | cons c r =>
    obtain ⟨h1, h2, h3⟩ := h
    have d1 : reDecimal (c :: r) = false := by simp [reDecimal, dropSign, h1, plus, h2]
    have d2 : ∀ l u p, reRadix l u p (c :: r) = none := by
      intro l u p
      unfold reRadix
      split
      · rename_i heq; simp at heq; exact absurd heq.1 h3
      · rfl
    have d3 : reFloat (c :: r) = false := by
      simp only [reFloat, dropSign, h1, List.span_eq_take_drop, List.takeWhile, h2,
        List.dropWhile, Bool.false_eq_true, if_false]
      split
      · rename_i heq
        simp only [Prod.mk.injEq] at heq
        simp [← heq.1]
      · rfl
    have d4 : reExpFloat (c :: r) = none := by
      simp [reExpFloat, dropSign, h1, List.span_eq_take_drop, List.takeWhile, h2]
    have d5 : reChar (c :: r) = none := by
      unfold reChar
      split
      · rename_i heq; simp at heq; exact absurd heq.1 h3
      · rfl
    have d6 : String.mk (c :: r) ≠ "#\\newline" := by
      intro he
      have := congrArg String.toList he
      simp at this
      exact h3 this.1
    have d7 : String.mk (c :: r) ≠ "#\\space" := by
      intro he
      have := congrArg String.toList he
      simp at this
      exact h3 this.1
    unfold ParseAtom
    simp only [String.toList, d1, d2, d3, d4, d5, d6, d7, Bool.false_eq_true, if_false]

theorem reSymbol_eq (cs : List Char) : reSymbol cs = (symbolForm isSymRest cs || cs.isEmpty) := rfl

theorem symPunct_head (c : Char) (h : c ∈ symPunct) :
    isSign c = false ∧ isDigit c = false ∧ c ≠ '#' ∧ c ≠ '"' := by
  revert c
  decide

theorem isSymStart_head (c : Char) (h : isSymStart c = true) :
    isSign c = false ∧ isDigit c = false ∧ c ≠ '#' ∧ c ≠ '"' := by
  simp only [isSymStart, isAlpha, inRange, Bool.or_eq_true, decide_eq_true_eq,
    List.contains_eq_any_beq, List.any_eq_true] at h
  rcases h with h | h
  · have h' : (97 ≤ c.toNat ∧ c.toNat ≤ 122) ∨ (65 ≤ c.toNat ∧ c.toNat ≤ 90) := by
      simpa using h
    have ne : ∀ d : Char, d.toNat < 65 → c ≠ d := by
      rintro d hd rfl; omega
    refine ⟨?_, ?_, ne _ (by decide), ne _ (by decide)⟩
    · simp [isSign, ne '-' (by decide), ne '+' (by decide)]
    · simp [isDigit, inRange]; omega
  · obtain ⟨x, hx, hxc⟩ := h
    have : c = x := by simpa using hxc
    subst this
    exact symPunct_head _ hx

theorem ParseAtom_symbol (H : Host) (tok : String) (hn : tok ≠ "nil")
    (hs : reSymbol tok.toList = true) :
    ParseAtom H tok = (Instance.Symbol (ToUpper H tok), Instance.nil) := by
  obtain ⟨cs⟩ := tok
  have generic : ∀ (c : Char) (r : List Char), cs = c :: r →
      isSign c = false ∧ isDigit c = false ∧ c ≠ '#' ∧ c ≠ '"' →
      ParseAtom H (String.mk cs) = (Instance.Symbol (ToUpper H (String.mk cs)), Instance.nil) := by
    rintro c r rfl ⟨h1, h2, h3, h4⟩
    rw [ParseAtom_nonnumeric H (c :: r) (show isSign c = false ∧ _ from ⟨h1, h2, h3⟩)]
    have : reDelimited '"' (c :: r) = false := by
      simp [reDelimited, h4]
    have hs2 : reSymbol (c :: r) = true := hs
    rw [this, if_neg (by simp), if_neg hn, if_pos hs2]
  have hs' : reSymbol cs = true := hs
  match cs, hs', generic with
  | [], _, _ => rfl
  | c :: r, hs', generic =>
    simp only [reSymbol, reDelimited, plus, Bool.or_eq_true, Bool.and_eq_true, beq_iff_eq,
      List.isEmpty_cons, List.cons.injEq] at hs'
    rcases hs' with ((((((hs' | hs') | hs') | hs') | hs') | hs') | hs') | hs'
    · refine generic c r rfl ?_
      rcases hs'.1 with h | h <;> subst h <;> decide
    · refine generic c r rfl ?_
      have := hs'.1.1.1; subst this; decide
    · obtain ⟨rfl, rfl⟩ := hs'; rfl
    · obtain ⟨rfl, rfl⟩ := hs'; rfl
    · obtain ⟨rfl, rfl, rfl⟩ := hs'; rfl
    · obtain ⟨rfl, rfl, rfl⟩ := hs'; rfl
    · exact generic c r rfl (isSymStart_head c hs'.1)
    · simp at hs'

/-! ## Atoms: strings -/

theorem reDelimited_wrap (q : Char) (mid : List Char) (h : ∀ c ∈ mid, c ≠ '\n') :
    reDelimited q (q :: (mid ++ [q])) = true := by
  simp only [reDelimited, beq_self_eq_true, Bool.true_and, Bool.and_eq_true,
    Bool.not_eq_true', List.isEmpty_eq_false_iff_exists_mem, beq_iff_eq, List.all_eq_true]
  refine ⟨⟨⟨q, by simp⟩, by simp⟩, ?_⟩
  intro c hc
  rw [List.dropLast_concat] at hc
  simp [isDot, h c hc]

/-- **C8**, counterexample. A token that begins and ends with a double quote and
has a line feed between the quotes is no String: the pattern `^".*"$` does
not match it, no later pattern does, and the result is a parse error. -/
theorem ParseAtom_string_newline :
    ParseAtom sampleHost "\"a\nb\"" =
      (Instance.nil,
        Instance.ParseError (Instance.String "\"a\nb\"") (Instance.Class Class.Object)) := by
  decide

/-- **C8**, amended. A token that begins and ends with a double quote, with any
text without a line feed between the quotes (other quotes included), is read
as the String whose text is the whole token, quotes included, with no
condition. -/
theorem ParseAtom_string (H : Host) (mid : List Char) (h : ∀ c ∈ mid, c ≠ '\n') :
    ParseAtom H (String.mk ('"' :: (mid ++ ['"']))) =
      (Instance.String (String.mk ('"' :: (mid ++ ['"']))), Instance.nil) := by
  rw [ParseAtom_nonnumeric H ('"' :: (mid ++ ['"']))
      (show isSign '"' = false ∧ isDigit '"' = false ∧ '"' ≠ '#' from by decide),
    if_pos (reDelimited_wrap '"' mid h)]

/-- Witness of C8 as amended: the token `"a "b"`, with a quote inside. -/
theorem ParseAtom_string_witness :
    (∀ c ∈ ['a', ' ', '"', 'b'], c ≠ '\n') ∧
    ParseAtom sampleHost "\"a \"b\"" = (Instance.String "\"a \"b\"", Instance.nil) :=
  ⟨by decide, ParseAtom_string sampleHost ['a', ' ', '"', 'b'] (by decide)⟩

/-! ## Atoms: what is rejected -/

theorem ParseAtom_unmatched (H : Host) (tok : String) (hne : tok ≠ "")
    (h : atomForm isSymRest tok = false) :
    ParseAtom H tok = (Instance.nil,
      Instance.ParseError (Instance.String tok) (Instance.Class Class.Object)) := by
  simp only [atomForm, Bool.or_eq_false_iff, beq_eq_false_iff_ne, ne_eq] at h
  obtain ⟨⟨⟨⟨⟨⟨⟨⟨⟨⟨⟨h1, h2⟩, h3⟩, h4⟩, h5⟩, h6⟩, h7⟩, h8⟩, h9⟩, h10⟩, h11⟩, h12⟩ := h
  have he : tok.toList.isEmpty = false := by
    obtain ⟨cs⟩ := tok
    cases cs with
    | nil => exact absurd rfl hne
    | cons c r => rfl
  have hs : reSymbol tok.toList = false := by rw [reSymbol_eq, h12, he]; rfl
  have none_of : ∀ {α : Type} (o : Option α), o.isSome = false → o = none := by
    intro α o ho; cases o with
    | none => rfl
    | some x => exact Bool.noConfusion ho
  have h2 := none_of _ h2
  have h3 := none_of _ h3
  have h4 := none_of _ h4
  have h6 := none_of _ h6
  have h9 := none_of _ h9
  unfold ParseAtom
  simp only [h1, h2, h3, h4, h5, h6, h7, h8, h9, h10, h11, hs, Bool.false_eq_true, if_false]

/-! ## Integer primitives -/

/-- **C9.** `Div` truncates toward zero: on -7 and 2 it returns the Integer -3,
where the floor of the quotient is -4; on 7 and 2 it returns 3. -/
theorem Div_truncates :
    Div (Instance.Integer (-7)) (Instance.Integer 2) = (Instance.Integer (-3), Instance.nil) ∧
    Div (Instance.Integer 7) (Instance.Integer 2) = (Instance.Integer 3, Instance.nil) := by
  decide

/-- **C10.** `Mod` returns a remainder with the sign of the dividend: on 7 and -2
it returns the Integer 1, which is positive and outside the range from -2
(exclusive) to 0; on -7 and 2 it returns -1. -/
theorem Mod_sign_of_dividend :
    Mod (Instance.Integer 7) (Instance.Integer (-2)) = (Instance.Integer 1, Instance.nil) ∧
    Mod (Instance.Integer (-7)) (Instance.Integer 2) = (Instance.Integer (-1), Instance.nil) := by
  decide

/-! ## Integer primitives: `Mod` and the zero divisor -/

theorem convInt_Integer (a : Int) : convInt (Instance.Integer a) = (a, Instance.nil) := by
  simp [convInt, ensure, Of]

theorem convInt_cases (z : Instance) :
    (∃ a, z = Instance.Integer a) ∨
    convInt z = (0, Instance.DomainError z (Instance.Class Class.Integer)) := by
  cases z <;> simp [convInt, ensure, Of]

/-- **C11.** For a divisor other than zero `Mod` returns an Integer and no
condition, and the difference of the dividend and the result is a multiple of
the divisor. -/
theorem Mod_congruent (a b : Int) (hb : b ≠ 0) :
    ∃ r, Mod (Instance.Integer a) (Instance.Integer b) = (Instance.Integer r, Instance.nil) ∧
      b ∣ a - r := by
  refine ⟨goRem a b, ?_, ?_⟩
  · simp [Mod, convInt_Integer, hb]
  · rw [goRem, Int.tmod_def]
    exact ⟨a.tdiv b, by ring⟩

/-- Witness of C11: 7 and -2, where the result is 1 and 7 - 1 is a multiple
of -2. -/
theorem Mod_congruent_witness :
    (-2 : Int) ≠ 0 ∧
    ∃ r, Mod (Instance.Integer 7) (Instance.Integer (-2)) =
      (Instance.Integer r, Instance.nil) ∧ (-2 : Int) ∣ 7 - r :=
  ⟨by decide, Mod_congruent 7 (-2) (by decide)⟩

theorem Div_cond (z1 z2 : Instance) (h : z2 ≠ Instance.Integer 0) (x y : Instance) :
    (Div z1 z2).2 ≠ Instance.DivisionByZero x y := by
  rcases convInt_cases z1 with ⟨a, rfl⟩ | h1
  · rcases convInt_cases z2 with ⟨b, rfl⟩ | h2
    · have hb : b ≠ 0 := fun e => h (by rw [e])
      simp [Div, convInt_Integer, hb]
    · simp [Div, convInt_Integer, h2]
  · simp [Div, h1]

theorem Mod_cond (z1 z2 : Instance) (h : z2 ≠ Instance.Integer 0) (x y : Instance) :
    (Mod z1 z2).2 ≠ Instance.DivisionByZero x y := by
  rcases convInt_cases z1 with ⟨a, rfl⟩ | h1
  · rcases convInt_cases z2 with ⟨b, rfl⟩ | h2
    · have hb : b ≠ 0 := fun e => h (by rw [e])
      simp [Mod, convInt_Integer, hb]
    · simp [Mod, convInt_Integer, h2]
  · simp [Mod, h1]

/-- **C12.** On a zero divisor `Div` returns no value and a DivisionByZero
condition whose OPERATION is the symbol DIV and whose OPERANDS is the proper
list of the dividend and 0; `Mod` does the same with the symbol MOD. On any
other divisor neither returns a DivisionByZero condition. -/
theorem Div_Mod_zero_divisor (a : Int) :
    Div (Instance.Integer a) (Instance.Integer 0) =
      (Instance.nil, Instance.DivisionByZero (Instance.Symbol "DIV")
        (Instance.Cons (Instance.Integer a) (Instance.Cons (Instance.Integer 0)
          Instance.Null))) ∧
    Mod (Instance.Integer a) (Instance.Integer 0) =
      (Instance.nil, Instance.DivisionByZero (Instance.Symbol "MOD")
        (Instance.Cons (Instance.Integer a) (Instance.Cons (Instance.Integer 0)
          Instance.Null))) ∧
    IsProperList (Instance.Cons (Instance.Integer a) (Instance.Cons (Instance.Integer 0)
      Instance.Null)) = true ∧
    (∀ z2 x y : Instance, z2 ≠ Instance.Integer 0 →
      (Div (Instance.Integer a) z2).2 ≠ Instance.DivisionByZero x y ∧
      (Mod (Instance.Integer a) z2).2 ≠ Instance.DivisionByZero x y) := by
  refine ⟨by simp [Div, convInt_Integer], by simp [Mod, convInt_Integer], rfl, ?_⟩
  intro z2 x y h
  exact ⟨Div_cond _ z2 h x y, Mod_cond _ z2 h x y⟩

/-- Witness of C12: the dividend 5, and the divisor 3 for the last part. -/
theorem Div_Mod_zero_divisor_witness :
    Instance.Integer 3 ≠ Instance.Integer 0 ∧
    (Div (Instance.Integer 5) (Instance.Integer 3)).2 ≠
      Instance.DivisionByZero (Instance.Symbol "DIV")
        (Instance.Cons (Instance.Integer 5) (Instance.Cons (Instance.Integer 3)
          Instance.Null)) :=
  ⟨by decide, ((Div_Mod_zero_divisor 5).2.2.2 (Instance.Integer 3) _ _ (by decide)).1⟩

/-! ## Integer primitives: `Gcd` and `Lcm` -/

theorem goRem_natAbs (a b : Int) : (goRem a b).natAbs = a.natAbs % b.natAbs := by
  unfold goRem
  cases a <;> cases b <;> simp [Int.tmod, Int.natAbs_neg]
  all_goals rfl

/-- The loop ends within the fuel, and what it returns divides both numbers
and is divided by each of their common divisors. -/
theorem gcdLoop_spec (fuel : Nat) (x y : Int) (h : y.natAbs < fuel) :
    ∃ g, gcdLoop fuel x y = some g ∧ g ∣ x ∧ g ∣ y ∧ ∀ d : Int, d ∣ x → d ∣ y → d ∣ g := by
  induction fuel generalizing x y with
  | zero => omega
  | succ fuel ih =>
    rw [gcdLoop]
    by_cases hy : y = 0
    · subst hy
      rw [if_neg (by simp)]
      exact ⟨x, rfl, dvd_refl x, dvd_zero x, fun d hd _ => hd⟩
    · rw [if_pos hy]
      have hlt : (goRem x y).natAbs < fuel := by
        rw [goRem_natAbs]
        have : x.natAbs % y.natAbs < y.natAbs :=
          Nat.mod_lt _ (Int.natAbs_pos.mpr hy)
        omega
      obtain ⟨g, hg, hgy, hgr, hmax⟩ := ih y (goRem x y) hlt
      have hx : x = goRem x y + y * x.tdiv y := (Int.tmod_add_tdiv x y).symm
      refine ⟨g, hg, ?_, hgy, fun d hdx hdy => hmax d hdy ?_⟩
      · rw [hx]
        exact dvd_add hgr (Dvd.dvd.mul_right hgy _)
      · have : goRem x y = x - y * x.tdiv y := Int.tmod_def x y
        rw [this]
        exact dvd_sub hdx (Dvd.dvd.mul_right hdy _)

theorem gcdLoop_fuel_le (f g : Nat) (hfg : f ≤ g) (x y r : Int)
    (h : gcdLoop f x y = some r) : gcdLoop g x y = some r := by
  induction f generalizing g x y with
  | zero => simp [gcdLoop] at h
  | succ f ih =>
    obtain ⟨g, rfl⟩ : ∃ k, g = k + 1 := ⟨g - 1, by omega⟩
    rw [gcdLoop] at h ⊢
    by_cases hy : y = 0
    · rw [if_neg (by simp [hy])] at h ⊢
      exact h
    · rw [if_pos hy] at h ⊢
      exact ih g (by omega) _ _ h

/-- **C13.** `Gcd` returns a negative Integer for some arguments: -2 on 4
and -6, and -4 on -4 and 0. -/
theorem Gcd_negative :
    GcdTop (Instance.Integer 4) (Instance.Integer (-6)) =
      some (Instance.Integer (-2), Instance.nil) ∧
    GcdTop (Instance.Integer (-4)) (Instance.Integer 0) =
      some (Instance.Integer (-4), Instance.nil) := by
  decide

/-- **C14.** With fuel above the absolute value of the second argument the loop
of `Gcd` ends, and `Gcd` returns no condition and an Integer that divides both
arguments and is divided by every integer that divides both. `Gcd` of 0 and 0
is 0, and of 12 and 18 it is 6. -/
theorem Gcd_greatest (a b : Int) (fuel : Nat) (h : b.natAbs < fuel) :
    (∃ g, Gcd fuel (Instance.Integer a) (Instance.Integer b) =
        some (Instance.Integer g, Instance.nil) ∧
      g ∣ a ∧ g ∣ b ∧ ∀ d : Int, d ∣ a → d ∣ b → d ∣ g) ∧
    GcdTop (Instance.Integer a) (Instance.Integer b) =
      Gcd fuel (Instance.Integer a) (Instance.Integer b) ∧
    GcdTop (Instance.Integer 0) (Instance.Integer 0) =
      some (Instance.Integer 0, Instance.nil) ∧
    GcdTop (Instance.Integer 12) (Instance.Integer 18) =
      some (Instance.Integer 6, Instance.nil) := by
  obtain ⟨g, hg, hrest⟩ := gcdLoop_spec fuel a b h
  obtain ⟨g', hg', -⟩ := gcdLoop_spec (b.natAbs + 1) a b (by omega)
  have hsame : g' = g := by
    rcases Nat.le_total fuel (b.natAbs + 1) with hle | hle
    · have := gcdLoop_fuel_le _ _ hle a b g hg
      rw [hg'] at this
      exact Option.some.inj this
    · have := gcdLoop_fuel_le _ _ hle a b g' hg'
      rw [hg] at this
      exact (Option.some.inj this).symm
  refine ⟨⟨g, by simp [Gcd, convInt_Integer, hg], hrest⟩, ?_, by decide, by decide⟩
  simp [GcdTop, Gcd, convInt_Integer, hg, hg', hsame]

/-- Witness of C14: 12 and 18 with fuel 19. -/
theorem Gcd_greatest_witness :
    (18 : Int).natAbs < 19 ∧
    ∃ g, Gcd 19 (Instance.Integer 12) (Instance.Integer 18) =
        some (Instance.Integer g, Instance.nil) ∧
      g ∣ 12 ∧ g ∣ 18 ∧ ∀ d : Int, d ∣ 12 → d ∣ 18 → d ∣ g :=
  ⟨by decide, (Gcd_greatest 12 18 19 (by decide)).1⟩

/-- **C15.** On 0 and 0 `Lcm` divides by the zero that its loop returns, which
is a panic of the Go run time and no condition; on 4 and 6 it returns 12. -/
theorem Lcm_zero_zero_panics :
    LcmTop (Instance.Integer 0) (Instance.Integer 0) = some Outcome.panics ∧
    LcmTop (Instance.Integer 4) (Instance.Integer 6) =
      some (Outcome.returns (Instance.Integer 12) Instance.nil) := by
  decide

/-! ## Integer primitives: `Isqrt` -/

/-- **C16.** On a negative Integer `Isqrt` returns no value and a DomainError
whose OBJECT is the argument (and whose EXPECTED-CLASS is Number); on any
other Integer it returns an Integer and no condition. -/
theorem Isqrt_domain (floatSqrt : Int → Int) (a : Int) :
    (a < 0 → Isqrt floatSqrt (Instance.Integer a) =
      (Instance.nil,
        Instance.DomainError (Instance.Integer a) (Instance.Class Class.Number))) ∧
    (0 ≤ a → ∃ r, Isqrt floatSqrt (Instance.Integer a) =
      (Instance.Integer r, Instance.nil)) := by
  constructor
  · intro h
    simp [Isqrt, convInt_Integer, h]
  · intro h
    exact ⟨floatSqrt a, by simp [Isqrt, convInt_Integer, not_lt.mpr h]⟩

/-- Witness of C16: the arguments -1 and 10, with the integer square root in
the place of the floating point computation. -/
theorem Isqrt_domain_witness :
    ((-1 : Int) < 0 ∧ Isqrt (fun n => (Nat.sqrt n.toNat : Int)) (Instance.Integer (-1)) =
      (Instance.nil,
        Instance.DomainError (Instance.Integer (-1)) (Instance.Class Class.Number))) ∧
    ((0 : Int) ≤ 10 ∧ ∃ r, Isqrt (fun n => (Nat.sqrt n.toNat : Int)) (Instance.Integer 10) =
      (Instance.Integer r, Instance.nil)) :=
  ⟨⟨by decide, (Isqrt_domain _ (-1)).1 (by decide)⟩,
    ⟨by decide, (Isqrt_domain _ 10).2 (by decide)⟩⟩

/-! ## Proper lists -/

theorem IsProperList_chain (vs : List Instance) : IsProperList (chain vs Instance.Null) = true := by
  induction vs with
  | nil => rfl
  | cons v vs ih => simpa [chain, IsProperList] using ih

theorem IsProperList_iff (i : Instance) :
    IsProperList i = true ↔ ∃ vs, i = chain vs Instance.Null := by
  constructor
  · intro h
    induction i with
    | Cons car cdr _ ih =>
      obtain ⟨vs, rfl⟩ := ih (by simpa [IsProperList] using h)
      exact ⟨car :: vs, rfl⟩
    | Null => exact ⟨[], rfl⟩
    | _ => simp [IsProperList] at h
  · rintro ⟨vs, rfl⟩
    exact IsProperList_chain vs

/-! ## Reader macros -/

theorem reMacro_eq (tok : String) : reMacro tok = (isQuoteTok tok || isVectorTok tok) := rfl

theorem ParseTop_macro (H : Host) (hH : H.eof ≠ Instance.nil) (tok : String)
    (h1 : tok ≠ "(") (h2 : tok ≠ ")") (h3 : tok ≠ ".") (hm : reMacro tok = true)
    {t t' : Tokenizer} {v e : Instance} (h : ParseTop H t = some (v, e, t')) :
    ∃ f, Parse H f t = some (v, e, t') ∧
      ∀ r : Result, parseMacro H (f + 1) tok t = some r →
        ParseTop H (tok :: t) =
          some (if r.2.1 ≠ Instance.nil then (Instance.nil, r.2.1, r.2.2)
            else (r.1, Instance.nil, r.2.2)) := by
  refine ⟨_, h, fun r hr => ?_⟩
  apply ParseTop_of_Parse H hH (f := 2 * t.length + 2 + 1 + 1)
  rw [Parse_cons_tokens, if_neg h1, if_neg h2, if_neg h3, if_pos hm, hr]
  obtain ⟨a, b, c⟩ := r
  dsimp only
  split <;> rfl

theorem ParseTop_quote (H : Host) (hH : H.eof ≠ Instance.nil) (tok head : String)
    (hq : (tok, head) ∈ quoteHeads) {t t' : Tokenizer} {v e : Instance}
    (h : ParseTop H t = some (v, e, t')) :
    ParseTop H (tok :: t) =
      some (if e ≠ Instance.nil then (Instance.nil, e, t')
        else (Instance.Cons (Instance.Symbol head) (Instance.Cons v Instance.Null),
          Instance.nil, t')) := by
  have facts : tok ≠ "(" ∧ tok ≠ ")" ∧ tok ≠ "." ∧ reMacro tok = true ∧
      reArray tok.toList = false ∧
      (if tok = "#'" then "FUNCTION"
        else if tok = ",@" then "commaat"
        else if tok = "," then "comma"
        else if tok = "'" then "QUOTE"
        else if tok = "`" then "BACKQUOTE"
        else tok) = head := by
    simp only [quoteHeads, List.mem_cons, Prod.mk.injEq, List.mem_singleton,
      List.not_mem_nil, or_false] at hq
    rcases hq with ⟨rfl, rfl⟩ | ⟨rfl, rfl⟩ | ⟨rfl, rfl⟩ | ⟨rfl, rfl⟩ | ⟨rfl, rfl⟩ <;> decide
  obtain ⟨f1, f2, f3, f4, f5, f6⟩ := facts
  obtain ⟨f, hf, hall⟩ := ParseTop_macro H hH tok f1 f2 f3 f4 h
  by_cases he : e ≠ Instance.nil
  · have hr : parseMacro H (f + 1) tok t = some (Instance.nil, e, t') := by
      rw [parseMacro, hf]; dsimp only; rw [if_pos he]
    rw [hall _ hr]; dsimp only; rw [if_pos he, if_pos he]
  · have hr : parseMacro H (f + 1) tok t =
        some (Instance.Cons (Instance.Symbol head) (Instance.Cons v Instance.Null),
          Instance.nil, t') := by
      rw [parseMacro, hf]; dsimp only; rw [if_neg he, if_neg (by rw [f5]; decide), f6]
    rw [hall _ hr]; dsimp only; rw [if_neg he, if_neg (by simp)]

/-- **C17.** For each quote-family token, with its head symbol QUOTE, BACKQUOTE,
comma, commaat or FUNCTION as `quoteHeads` lists them: when the tokens after
it parse to a value, a top-level call returns no condition and the list of the
head symbol and the value; when they fail to parse, it returns that condition
and no value. The tokens `'` and `x` give the list of QUOTE and X. -/
theorem Parse_quote_family (H : Host) (hH : H.eof ≠ Instance.nil) (tok head : String)
    (hq : (tok, head) ∈ quoteHeads) (t : Tokenizer) (v e : Instance) (t' : Tokenizer)
    (h : ParseTop H t = some (v, e, t')) :
    (e = Instance.nil → ParseTop H (tok :: t) =
      some (Instance.Cons (Instance.Symbol head) (Instance.Cons v Instance.Null),
        Instance.nil, t')) ∧
    (e ≠ Instance.nil → ParseTop H (tok :: t) = some (Instance.nil, e, t')) ∧
    ParseTop H ["'", "x"] =
      some (Instance.Cons (Instance.Symbol "QUOTE")
        (Instance.Cons (Instance.Symbol "X") Instance.Null), Instance.nil, []) := by
  have key := ParseTop_quote H hH tok head hq h
  refine ⟨fun he => ?_, fun he => ?_, rfl⟩
  · rw [key, if_neg (by simp [he])]
  · rw [key, if_pos he]

/-- Witness of C17: the token `,@` before the list `( a )`, and the token `#'`
before a stray `)`. -/
theorem Parse_quote_family_witness :
    sampleHost.eof ≠ Instance.nil ∧ (",@", "commaat") ∈ quoteHeads ∧
    ParseTop sampleHost [",@", "(", "a", ")"] =
      some (Instance.Cons (Instance.Symbol "commaat")
        (Instance.Cons (Instance.Cons (Instance.Symbol "A") Instance.Null) Instance.Null),
        Instance.nil, []) ∧
    ParseTop sampleHost ["#'", ")"] = some (Instance.nil, eop, []) :=
  ⟨by decide, by decide,
    (Parse_quote_family sampleHost (by decide) ",@" "commaat" (by decide) ["(", "a", ")"]
      (Instance.Cons (Instance.Symbol "A") Instance.Null) Instance.nil [] (by decide)).1 rfl,
    (Parse_quote_family sampleHost (by decide) "#'" "FUNCTION" (by decide) [")"]
      Instance.nil eop [] (by decide)).2.1 (by decide)⟩

/-! ## Sized vectors -/

/-- The runes of a sized vector token: `#`, digits, and `a` or `A`. -/
theorem isVectorTok_shape (tok : String) (h : isVectorTok tok = true) :
    ∃ c, (c = 'a' ∨ c = 'A') ∧ tok.toList = '#' :: (vectorDigits tok ++ [c]) ∧
      (∀ d ∈ vectorDigits tok, isDigit d = true) ∧
      (vectorDigits tok ++ [c]).dropWhile isDigit = [c] := by
  obtain ⟨cs⟩ := tok
  unfold isVectorTok at h
  simp only [String.toList] at h
  split at h
  · rename_i _ r
    split at h
    · rename_i c hc
      have hr := List.takeWhile_append_dropWhile isDigit r
      rw [hc] at hr
      refine ⟨c, by simpa using h, ?_, ?_, ?_⟩
      · simp only [String.toList, vectorDigits, List.drop_succ_cons, List.drop_zero, hr]
      · intro d hd
        simpa using List.mem_takeWhile_imp hd
      · simp only [String.toList, vectorDigits, List.drop_succ_cons, List.drop_zero, hr, hc]
    · exact Bool.noConfusion h
  · exact Bool.noConfusion h

theorem indexOfA_digits (ds : List Char) (c : Char) (hc : c = 'a' ∨ c = 'A')
    (hd : ∀ d ∈ ds, isDigit d = true) :
    List.findIdx (fun c => c == 'a' || c == 'A') (ds ++ [c]) = ds.length := by
  induction ds with
  | nil => rcases hc with rfl | rfl <;> rfl
  | cons d ds ih =>
    have h1 : isDigit d = true := hd d (List.mem_cons_self _ _)
    have h2 : (d == 'a' || d == 'A') = false := by
      have : 48 ≤ d.toNat ∧ d.toNat ≤ 57 := by simpa [isDigit, inRange] using h1
      have ne : ∀ x : Char, 57 < x.toNat → d ≠ x := by rintro x hx rfl; omega
      simp [ne 'a' (by decide), ne 'A' (by decide)]
    rw [List.cons_append, List.findIdx_cons, h2]
    simp [ih (fun x hx => hd x (List.mem_cons_of_mem _ hx))]

theorem ParseInt_digits32 (ds : List Char) (hne : ds ≠ [])
    (hd : ∀ c ∈ ds, isDigit c = true) (hlt : digitsValue 10 ds < 2 ^ 31) :
    ParseInt ds 10 32 = ((digitsValue 10 ds : Int), none) := by
  have hv : ∀ c ∈ ds, ValidDigit 10 c := fun c hc => validDigit_dec c (hd c hc)
  have hu : ParseUint ds 10 32 = (digitsValue 10 ds, none) := by
    unfold ParseUint
    rw [if_neg hne]
    exact parseUintLoop_exact 10 _ (by norm_num) (by norm_num) ds 0 hv (by
      have : digitsValue 10 ds ≤ 2 ^ 32 - 1 := by omega
      exact this)
  match ds, hne, hv, hu with
  | c :: cs, _, hv, hu =>
    have hc := (hv c (List.mem_cons_self _ _)).not_sign
    have c1 : (c == '-') = false := by simpa using hc.2
    have c2 : (c == '+') = false := by simpa using hc.1
    unfold ParseInt
    simp only [c1, c2, Bool.false_eq_true, or_self, if_false, hu]
    have n1 : ¬ (2 ^ (32 - 1) ≤ digitsValue 10 (c :: cs)) := by
      have : (2 : Nat) ^ (32 - 1) = 2 ^ 31 := by norm_num
      omega
    simp only [true_and, n1, if_false, false_and]
    rw [wrap64_of_inInt64 _ ⟨by omega, by omega⟩]

theorem ParseTop_vector (H : Host) (hH : H.eof ≠ Instance.nil) (tok : String)
    (hv : isVectorTok tok = true) (hs : FitsInt32 tok) {t t' : Tokenizer} {v e : Instance}
    (h : ParseTop H t = some (v, e, t')) :
    ParseTop H (tok :: t) =
      some (if e ≠ Instance.nil then (Instance.nil, e, t')
        else (Instance.Cons (Instance.Symbol "array")
          (Instance.Cons (Instance.Integer (vectorSize tok)) (Instance.Cons v Instance.Null)),
          Instance.nil, t')) := by
  obtain ⟨c, hc, htl, hdig, hdrop⟩ := isVectorTok_shape tok hv
  have ne : ∀ s : String, s.toList.head? ≠ some '#' → tok ≠ s := by
    rintro s hs' rfl
    rw [htl] at hs'
    exact hs' rfl
  have hm : reMacro tok = true := by rw [reMacro_eq, hv, Bool.or_true]
  obtain ⟨f, hf, hall⟩ := ParseTop_macro H hH tok (ne _ (by decide)) (ne _ (by decide))
    (ne _ (by decide)) hm h
  have hra : reArray tok.toList = true := by
    rw [htl]
    simp [reArray, List.tails, arrayAt, hdrop]
    rcases hc with rfl | rfl <;> simp
  have hidx : indexOfA tok.toList = (vectorDigits tok).length + 1 := by
    rw [htl, indexOfA, List.findIdx_cons]
    simp [indexOfA_digits _ c hc hdig]
  have hspan : List.drop 1 (List.take (indexOfA tok.toList) tok.toList) = vectorDigits tok := by
    rw [hidx, htl]
    simp
  by_cases he : e ≠ Instance.nil
  · have hr : parseMacro H (f + 1) tok t = some (Instance.nil, e, t') := by
      rw [parseMacro, hf]; dsimp only; rw [if_pos he]
    rw [hall _ hr]; dsimp only; rw [if_pos he, if_pos he]
  · have hr : parseMacro H (f + 1) tok t =
        some (Instance.Cons (Instance.Symbol "array")
          (Instance.Cons (Instance.Integer (vectorSize tok)) (Instance.Cons v Instance.Null)),
          Instance.nil, t') := by
      rw [parseMacro, hf]; dsimp only; rw [if_neg he, if_pos hra, hspan, hidx]
      by_cases hd0 : vectorDigits tok = []
      · rw [if_pos (by simp [hd0])]
        simp [vectorSize, hd0]
      · have hlen : (vectorDigits tok).length + 1 ≠ 1 := by
          intro hl
          exact hd0 (List.length_eq_zero.mp (by omega))
        rw [if_neg hlen, ParseInt_digits32 _ hd0 hdig hs]
        simp [vectorSize, hd0]
    rw [hall _ hr]; dsimp only; rw [if_neg he, if_neg (by simp)]

/-- **C18**, counterexample. The head of the list that a sized vector token
gives is the symbol named `array` in lower case, which is not the symbol
named `ARRAY`: on `#3A ( 1 2 3 )` the result is `(array 3 (1 2 3))`. -/
theorem Parse_vector_head_lower :
    ParseTop sampleHost ["#3A", "(", "1", "2", "3", ")"] =
      some (Instance.Cons (Instance.Symbol "array") (Instance.Cons (Instance.Integer 3)
        (Instance.Cons (Instance.Cons (Instance.Integer 1) (Instance.Cons (Instance.Integer 2)
          (Instance.Cons (Instance.Integer 3) Instance.Null))) Instance.Null)),
        Instance.nil, []) ∧
    Instance.Symbol "array" ≠ Instance.Symbol "ARRAY" := by
  decide

/-- **C18**, amended. For every sized vector token whose digit span denotes a
number below two to the 31st (the size; 1 when there are no digits), when the
tokens after it parse to a value, a top-level call returns no condition and
the three-element proper list of the symbol named `array` in lower case, the
Integer of the size and the value. -/
theorem Parse_vector_literal (H : Host) (hH : H.eof ≠ Instance.nil) (tok : String)
    (hv : isVectorTok tok = true) (hs : FitsInt32 tok) (t : Tokenizer) (v : Instance)
    (t' : Tokenizer) (h : ParseTop H t = some (v, Instance.nil, t')) :
    ParseTop H (tok :: t) =
      some (chain [Instance.Symbol "array", Instance.Integer (vectorSize tok), v]
        Instance.Null, Instance.nil, t') ∧
    IsProperList (chain [Instance.Symbol "array", Instance.Integer (vectorSize tok), v]
      Instance.Null) = true := by
  refine ⟨?_, IsProperList_chain _⟩
  rw [ParseTop_vector H hH tok hv hs h, if_neg (by simp)]
  rfl

/-- Witness of C18 as amended: the tokens `#3A ( 1 2 3 )` and `#a x`. -/
theorem Parse_vector_literal_witness :
    sampleHost.eof ≠ Instance.nil ∧ isVectorTok "#3A" = true ∧ FitsInt32 "#3A" ∧
    ParseTop sampleHost ["#3A", "(", "1", "2", "3", ")"] =
      some (chain [Instance.Symbol "array", Instance.Integer 3,
        chain [Instance.Integer 1, Instance.Integer 2, Instance.Integer 3] Instance.Null]
        Instance.Null, Instance.nil, []) ∧
    ParseTop sampleHost ["#a", "x"] =
      some (chain [Instance.Symbol "array", Instance.Integer 1, Instance.Symbol "X"]
        Instance.Null, Instance.nil, []) :=
  ⟨by decide, by decide, by unfold FitsInt32; decide,
    (Parse_vector_literal sampleHost (by decide) "#3A" (by decide)
      (by unfold FitsInt32; decide) ["(", "1", "2", "3", ")"]
      (chain [Instance.Integer 1, Instance.Integer 2, Instance.Integer 3] Instance.Null)
      [] (by decide)).1,
    (Parse_vector_literal sampleHost (by decide) "#a" (by decide)
      (by unfold FitsInt32; decide) ["x"] (Instance.Symbol "X") [] (by decide)).1⟩

/-! ## Proper lists of the reader -/

theorem IsProperList_improper (vs : List Instance) (t : Instance) (h1 : t ≠ Instance.Null)
    (h2 : ∀ a b, t ≠ Instance.Cons a b) : IsProperList (chain vs t) = false := by
  induction vs with
  | nil =>
    cases t <;> first | rfl | exact absurd rfl h1 | exact absurd rfl (h2 _ _)
  | cons v vs ih => simpa [chain, IsProperList] using ih

/-- **C19.** `IsProperList` is total, by recursion on its finite argument, and
it returns true exactly for the chains of pairs that end in Null, Null itself
included; for a chain that ends in any other value that is no pair, and so
for every atom, it returns false. It is true of what `( 1 2 )` parses to and
false of what `( 1 . 2 )` parses to. -/
theorem IsProperList_correct (i : Instance) (H : Host) :
    (IsProperList i = true ↔ ∃ vs, i = chain vs Instance.Null) ∧
    (∀ (vs : List Instance) (t : Instance), t ≠ Instance.Null →
      (∀ a b, t ≠ Instance.Cons a b) → IsProperList (chain vs t) = false) ∧
    (∃ v, ParseTop H ["(", "1", "2", ")"] = some (v, Instance.nil, []) ∧
      IsProperList v = true) ∧
    (∃ v, ParseTop H ["(", "1", ".", "2", ")"] = some (v, Instance.nil, []) ∧
      IsProperList v = false) :=
  ⟨IsProperList_iff i, IsProperList_improper, ⟨_, rfl, rfl⟩, ⟨_, rfl, rfl⟩⟩

/-- Witness of C19: the chain of 1 and 2 that ends in the Integer 3. -/
theorem IsProperList_correct_witness :
    Instance.Integer 3 ≠ Instance.Null ∧ (∀ a b, Instance.Integer 3 ≠ Instance.Cons a b) ∧
    IsProperList (Instance.Cons (Instance.Integer 1)
      (Instance.Cons (Instance.Integer 2) (Instance.Integer 3))) = false :=
  ⟨by decide, fun _ _ => Instance.noConfusion,
    (IsProperList_correct Instance.Null sampleHost).2.1
      [Instance.Integer 1, Instance.Integer 2] (Instance.Integer 3) (by decide)
      (fun _ _ => Instance.noConfusion)⟩

/-! ## One form at a time -/

theorem atomForm_vector (tok : String) (hv : isVectorTok tok = true) :
    atomForm isSymRest tok = false ∧ tok ≠ "" := by
  obtain ⟨c, hc, htl, hdig, -⟩ := isVectorTok_shape tok hv
  obtain ⟨x, r, hxr, hx⟩ : ∃ x r, vectorDigits tok ++ [c] = x :: r ∧
      (isDigit x = true ∨ x = 'a' ∨ x = 'A') := by
    cases hd : vectorDigits tok with
    | nil => exact ⟨c, [], rfl, Or.inr hc⟩
    | cons d ds =>
      exact ⟨d, ds ++ [c], rfl, Or.inl (hdig d (by rw [hd]; exact List.mem_cons_self _ _))⟩
  rw [hxr] at htl
  have hx' : x ≠ 'b' ∧ x ≠ 'B' ∧ x ≠ 'o' ∧ x ≠ 'O' ∧ x ≠ 'x' ∧ x ≠ 'X' ∧ x ≠ '\\' := by
    rcases hx with h | rfl | rfl
    · have : 48 ≤ x.toNat ∧ x.toNat ≤ 57 := by simpa [isDigit, inRange] using h
      have ne : ∀ y : Char, 57 < y.toNat → x ≠ y := by rintro y hy rfl; omega
      exact ⟨ne _ (by decide), ne _ (by decide), ne _ (by decide), ne _ (by decide),
        ne _ (by decide), ne _ (by decide), ne _ (by decide)⟩
    · decide
    · decide
  obtain ⟨cs⟩ := tok
  simp only [String.toList] at htl
  subst htl
  refine ⟨?_, fun he => by simpa using congrArg String.toList he⟩
  have e1 : reFloat ('#' :: x :: r) = false := by
    simp only [reFloat, dropSign, show isSign '#' = false by decide, Bool.false_eq_true,
      if_false, List.span_eq_take_drop, List.takeWhile, show isDigit '#' = false by decide,
      List.dropWhile]
    rfl
  have e2 : reExpFloat ('#' :: x :: r) = none := by
    simp [reExpFloat, dropSign, show isSign '#' = false by decide, List.span_eq_take_drop,
      List.takeWhile, show isDigit '#' = false by decide]
  have e3 : ∀ l u p, x ≠ l → x ≠ u → reRadix l u p ('#' :: x :: r) = none := by
    intro l u p hl hu
    simp [reRadix, hl, hu]
  have e4 : reChar ('#' :: x :: r) = none := by
    unfold reChar
    split
    · rename_i heq; simp at heq; exact absurd heq.1 hx'.2.2.2.2.2.2
    · rfl
  have e5 : String.mk ('#' :: x :: r) ≠ "#\\newline" := by
    intro he
    have := congrArg String.toList he
    simp at this
    exact hx'.2.2.2.2.2.2 this.1
  have e6 : String.mk ('#' :: x :: r) ≠ "#\\space" := by
    intro he
    have := congrArg String.toList he
    simp at this
    exact hx'.2.2.2.2.2.2 this.1
  have e7 : String.mk ('#' :: x :: r) ≠ "nil" := by
    intro he
    have := congrArg String.toList he
    simp at this
  have e8 : symbolForm isSymRest ('#' :: x :: r) = false := by
    simp [symbolForm, reDelimited, show isSymStart '#' = false by decide]
  simp [atomForm, reDecimal_hash, e1, e2, e3 _ _ _ hx'.1 hx'.2.1,
    e3 _ _ _ hx'.2.2.1 hx'.2.2.2.1, e3 _ _ _ hx'.2.2.2.2.1 hx'.2.2.2.2.2.1, e4, e5, e6, e7,
    e8, reDelimited]

theorem ParseAtom_structural (H : Host) (tok : String)
    (h : tok = "(" ∨ tok = ")" ∨ tok = "." ∨ reMacro tok = true) :
    (ParseAtom H tok).2 ≠ Instance.nil := by
  have lit : ∀ s : String, ParseAtom H s = (Instance.nil,
      Instance.ParseError (Instance.String s) (Instance.Class Class.Object)) →
      (ParseAtom H s).2 ≠ Instance.nil := by
    intro s hs
    rw [hs]
    simp
  rcases h with rfl | rfl | rfl | h
  · exact lit _ rfl
  · exact lit _ rfl
  · exact lit _ rfl
  · rw [reMacro_eq, Bool.or_eq_true] at h
    rcases h with h | h
    · simp only [isQuoteTok, Bool.or_eq_true, beq_iff_eq] at h
      rcases h with (((rfl | rfl) | rfl) | rfl) | rfl <;> exact lit _ rfl
    · obtain ⟨h1, h2⟩ := atomForm_vector tok h
      exact lit _ (ParseAtom_unmatched H tok h2 h1)

theorem ParseAtom_accept_value (H : Host) (tok : String)
    (h : (ParseAtom H tok).2 = Instance.nil) : (ParseAtom H tok).1 ≠ Instance.nil := by
  rcases ParseAtom_shape H tok with ⟨n, e⟩ | ⟨x, e⟩ | ⟨c, e⟩ | e | e | ⟨_, e⟩ | e
  all_goals rw [e] at h ⊢
  all_goals simp at h ⊢

theorem ParseTop_atom (H : Host) (hH : H.eof ≠ Instance.nil) (tok : String)
    (h : (ParseAtom H tok).2 = Instance.nil) (R : Tokenizer) :
    ParseTop H (tok :: R) = some ((ParseAtom H tok).1, Instance.nil, R) := by
  have hs := ParseAtom_structural H tok
  have h1 : tok ≠ "(" := fun e => hs (Or.inl e) h
  have h2 : tok ≠ ")" := fun e => hs (Or.inr (Or.inl e)) h
  have h3 : tok ≠ "." := fun e => hs (Or.inr (Or.inr (Or.inl e))) h
  have h4 : ¬ reMacro tok = true := fun e => hs (Or.inr (Or.inr (Or.inr e))) h
  apply ParseTop_of_Parse H hH (f := 1)
  rw [Parse_cons_tokens, if_neg h1, if_neg h2, if_neg h3, if_neg h4, if_neg (by simp [h])]

theorem forms_of_parsed (H : Host) (fs : List (List String))
    (h : ∀ f ∈ fs, ∃ v, v ≠ Instance.nil ∧ ParseTop H f = some (v, Instance.nil, [])) :
    ∃ forms : List (List String × Instance), formTokens forms = fs.flatten ∧
      (∀ p ∈ forms, ParseTop H p.1 = some (p.2, Instance.nil, [])) ∧
      (fs ≠ [] → forms ≠ []) := by
  induction fs with
  | nil => exact ⟨[], rfl, fun _ hp => absurd hp (List.not_mem_nil _), fun hn => absurd rfl hn⟩
  | cons f fs ih =>
    obtain ⟨forms, h1, h2, -⟩ := ih (fun g hg => h g (List.mem_cons_of_mem _ hg))
    obtain ⟨v, -, hv⟩ := h f (List.mem_cons_self _ _)
    refine ⟨(f, v) :: forms, ?_, ?_, fun _ => List.cons_ne_nil _ _⟩
    · simp only [formTokens, List.map_cons, List.flatten_cons] at h1 ⊢
      rw [h1]
    · intro p hp
      rcases List.mem_cons.mp hp with rfl | hp
      · exact hv
      · exact h2 p hp

theorem chain_ne_nil (vs : List Instance) (t : Instance) (h : vs ≠ [] ∨ t ≠ Instance.nil) :
    chain vs t ≠ Instance.nil := by
  cases vs with
  | nil =>
    rcases h with h | h
    · exact absurd rfl h
    · exact h
  | cons v vs => simp [chain]

theorem Parse_form (H : Host) (hH : H.Distinct) (F : List String) (hF : Form H FitsInt32 F)
    (R : Tokenizer) :
    ∃ v, v ≠ Instance.nil ∧ ParseTop H (F ++ R) = some (v, Instance.nil, R) := by
  induction hF generalizing R with
  | atom tok ha =>
    exact ⟨_, ParseAtom_accept_value H tok ha, ParseTop_atom H hH.1 tok ha R⟩
  | quote tok f hq _ ih =>
    obtain ⟨v, -, hv⟩ := ih R
    have hmem : ∃ head, (tok, head) ∈ quoteHeads := by
      simp only [isQuoteTok, Bool.or_eq_true, beq_iff_eq] at hq
      rcases hq with (((rfl | rfl) | rfl) | rfl) | rfl
      · exact ⟨"FUNCTION", by decide⟩
      · exact ⟨"comma", by decide⟩
      · exact ⟨"commaat", by decide⟩
      · exact ⟨"QUOTE", by decide⟩
      · exact ⟨"BACKQUOTE", by decide⟩
    obtain ⟨head, hmem⟩ := hmem
    refine ⟨_, ?_, by rw [List.cons_append, ParseTop_quote H hH.1 tok head hmem hv,
      if_neg (by simp)]⟩
    simp
  | vector tok f hv hs _ ih =>
    obtain ⟨v, -, hv'⟩ := ih R
    refine ⟨_, ?_, by rw [List.cons_append, ParseTop_vector H hH.1 tok hv hs hv',
      if_neg (by simp)]⟩
    simp
  | list fs _ ih =>
    obtain ⟨forms, h1, h2, -⟩ := forms_of_parsed H fs (fun f hf => by
      simpa using ih f hf [])
    obtain ⟨g, hg⟩ := parseCons_forms H hH forms h2 (parseCons_close H R)
    refine ⟨_, chain_ne_nil (formValues forms) Instance.Null (Or.inr Instance.noConfusion), ?_⟩
    have := Parse_open H hg hH.1
    rw [h1] at this
    simpa using this
  | dotted fs tail hne _ _ ih ihtail =>
    obtain ⟨forms, h1, h2, h3⟩ := forms_of_parsed H fs (fun f hf => by
      simpa using ih f hf [])
    obtain ⟨w, -, hw⟩ := ihtail []
    rw [List.append_nil] at hw
    have hw' := Parse_framed H hH hw (")" :: R)
    obtain ⟨g, hg⟩ := parseCons_forms H hH forms h2 (parseCons_dot H hw')
    refine ⟨_, chain_ne_nil (formValues forms) w (Or.inl ?_), ?_⟩
    · have := h3 hne
      simpa [formValues] using this
    · have := Parse_open H hg hH.1
      rw [h1] at this
      simpa using this

/-- **C20**, counterexample. The sized vector token `#4294967296a` followed by
the form `x` is a form as the claim has it, and a call on these tokens
followed by `y` fails: the digit span does not fit `strconv.ParseInt` with 32
bits, and the call returns a ParseError and no value. -/
theorem Parse_vector_too_large :
    Form sampleHost (fun _ => True) ["#4294967296a", "x"] ∧
    ParseTop sampleHost (["#4294967296a", "x"] ++ ["y"]) =
      some (Instance.nil,
        Instance.ParseError (Instance.String "#4294967296a") (Instance.Class Class.Integer),
        ["y"]) :=
  ⟨Form.vector _ _ (by decide) trivial (Form.atom "x" (by decide)), by decide⟩

/-- **C20**, amended. With the sized vector tokens restricted to those whose
digit span is a number below two to the 31st: for every token sequence that
is exactly one well-formed form followed by any tokens, one call succeeds
with a value, consumes exactly the tokens of the form and leaves the tokens
after it; hence on two forms in a row the first call leaves the second form
and what follows, and the next call leaves what follows. -/
theorem Parse_consumes_form (H : Host) (hH : H.Distinct) (F : List String)
    (hF : Form H FitsInt32 F) (R : Tokenizer) :
    (∃ v, v ≠ Instance.nil ∧ ParseTop H (F ++ R) = some (v, Instance.nil, R)) ∧
    (∀ G : List String, Form H FitsInt32 G →
      ∃ v w, ParseTop H (F ++ (G ++ R)) = some (v, Instance.nil, G ++ R) ∧
        ParseTop H (G ++ R) = some (w, Instance.nil, R)) := by
  refine ⟨Parse_form H hH F hF R, fun G hG => ?_⟩
  obtain ⟨v, -, hv⟩ := Parse_form H hH F hF (G ++ R)
  obtain ⟨w, -, hw⟩ := Parse_form H hH G hG R
  exact ⟨v, w, hv, hw⟩

/-- Witness of C20 as amended: the form `( a . ( b ) )` followed by the form
`'c` and the token `d`. -/
theorem Parse_consumes_form_witness :
    sampleHost.Distinct ∧
    Form sampleHost FitsInt32 ["(", "a", ".", "(", "b", ")", ")"] ∧
    ∃ v w, ParseTop sampleHost (["(", "a", ".", "(", "b", ")", ")"] ++ (["'", "c"] ++ ["d"])) =
        some (v, Instance.nil, ["'", "c"] ++ ["d"]) ∧
      ParseTop sampleHost (["'", "c"] ++ ["d"]) = some (w, Instance.nil, ["d"]) :=
  have hb : Form sampleHost FitsInt32 ["(", "b", ")"] :=
    Form.list [["b"]] (fun f hf => by
      rw [List.mem_singleton.mp hf]; exact Form.atom "b" (by decide))
  have hF : Form sampleHost FitsInt32 ["(", "a", ".", "(", "b", ")", ")"] :=
    Form.dotted [["a"]] ["(", "b", ")"] (by decide) (fun f hf => by
      rw [List.mem_singleton.mp hf]; exact Form.atom "a" (by decide)) hb
  ⟨sampleHost_distinct, hF,
    (Parse_consumes_form sampleHost sampleHost_distinct _ hF ["d"]).2 ["'", "c"]
      (Form.quote "'" ["c"] (by decide) (Form.atom "c" (by decide)))⟩

/-! ## The patterns of the code and the grammar of the specification -/

theorem mem_splits (a b : List Char) : (a, b) ∈ splits (a ++ b) := by
  unfold splits
  rw [List.mem_map]
  refine ⟨a.length, ?_, ?_⟩
  · rw [List.mem_range, List.length_append]; omega
  · rw [List.take_left, List.drop_left]

theorem any_splits (P : List Char × List Char → Bool) (a b : List Char) (h : P (a, b) = true) :
    (splits (a ++ b)).any P = true :=
  List.any_eq_true.mpr ⟨(a, b), mem_splits a b, h⟩

theorem contains_of_inRange (l h : Char) (cls : List Char)
    (hall : ∀ n, l.toNat ≤ n → n ≤ h.toNat → cls.contains (Char.ofNat n) = true)
    (c : Char) (hc : inRange l h c = true) : cls.contains c = true := by
  have h1 : l.toNat ≤ c.toNat ∧ c.toNat ≤ h.toNat := by simpa [inRange] using hc
  have := hall c.toNat h1.1 h1.2
  rwa [Char.ofNat_toNat] at this

theorem isDigit_dec (c : Char) (h : isDigit c = true) : decDigits.contains c = true :=
  contains_of_inRange '0' '9' _ (fun n h1 h2 => by
    have h1 : 48 ≤ n := h1
    have h2 : n ≤ 57 := h2
    interval_cases n <;> decide) c h

theorem isBinDigit_bin (c : Char) (h : isBinDigit c = true) : binDigits.contains c = true :=
  contains_of_inRange '0' '1' _ (fun n h1 h2 => by
    have h1 : 48 ≤ n := h1
    have h2 : n ≤ 49 := h2
    interval_cases n <;> decide) c h

theorem isOctDigit_oct (c : Char) (h : isOctDigit c = true) : octDigits.contains c = true :=
  contains_of_inRange '0' '7' _ (fun n h1 h2 => by
    have h1 : 48 ≤ n := h1
    have h2 : n ≤ 55 := h2
    interval_cases n <;> decide) c h

theorem isHexDigit_hex (c : Char) (h : isHexDigit c = true) : hexDigits.contains c = true := by
  simp only [isHexDigit, Bool.or_eq_true] at h
  rcases h with (h | h) | h
  · exact contains_of_inRange '0' '9' _ (fun n h1 h2 => by
      have h1 : 48 ≤ n := h1
      have h2 : n ≤ 57 := h2
      interval_cases n <;> decide) c h
  · exact contains_of_inRange 'A' 'F' _ (fun n h1 h2 => by
      have h1 : 65 ≤ n := h1
      have h2 : n ≤ 70 := h2
      interval_cases n <;> decide) c h
  · exact contains_of_inRange 'a' 'f' _ (fun n h1 h2 => by
      have h1 : 97 ≤ n := h1
      have h2 : n ≤ 102 := h2
      interval_cases n <;> decide) c h

theorem isAlpha_letters (c : Char) (h : isAlpha c = true) : letters.contains c = true := by
  simp only [isAlpha, Bool.or_eq_true] at h
  rcases h with h | h
  · exact contains_of_inRange 'a' 'z' _ (fun n h1 h2 => by
      have h1 : 97 ≤ n := h1
      have h2 : n ≤ 122 := h2
      interval_cases n <;> decide) c h
  · exact contains_of_inRange 'A' 'Z' _ (fun n h1 h2 => by
      have h1 : 65 ≤ n := h1
      have h2 : n ≤ 90 := h2
      interval_cases n <;> decide) c h

theorem symPunct_eq : symPunct = punctuation := by decide

theorem contains_append_left (a b : List Char) (c : Char) (h : a.contains c = true) :
    (a ++ b).contains c = true := by
  simp only [List.contains_iff_exists_mem_beq, List.mem_append] at h ⊢
  obtain ⟨x, hx, hxc⟩ := h
  exact ⟨x, Or.inl hx, hxc⟩

theorem contains_append_right (a b : List Char) (c : Char) (h : b.contains c = true) :
    (a ++ b).contains c = true := by
  simp only [List.contains_iff_exists_mem_beq, List.mem_append] at h ⊢
  obtain ⟨x, hx, hxc⟩ := h
  exact ⟨x, Or.inr hx, hxc⟩

theorem isSymStart_spec (c : Char) (h : isSymStart c = true) :
    (letters ++ punctuation).contains c = true := by
  simp only [isSymStart, Bool.or_eq_true] at h
  rcases h with h | h
  · exact contains_append_left _ _ _ (isAlpha_letters c h)
  · rw [symPunct_eq] at h
    exact contains_append_right _ _ _ h

theorem isSymRest_spec (c : Char) (h : isSymRest c = true) : amendedRest.contains c = true := by
  simp only [isSymRest, Bool.or_eq_true, beq_iff_eq] at h
  have sub : claimRest.contains c = true → amendedRest.contains c = true := fun hc => by
    simp only [amendedRest, List.contains_cons, hc, Bool.or_true]
  rcases h with (((h | h) | h) | h) | h
  · subst h; decide
  · exact sub (contains_append_left _ _ _ (contains_append_left _ _ _
      (contains_append_left _ _ _ (isAlpha_letters c h))))
  · exact sub (contains_append_left _ _ _ (contains_append_left _ _ _
      (contains_append_right _ _ _ (isDigit_dec c h))))
  · subst h; decide
  · rw [symPunct_eq] at h
    exact sub (contains_append_right _ _ _ h)

theorem isRun_of_plus (p : Char → Bool) (cls : List Char)
    (hp : ∀ c, p c = true → cls.contains c = true) (ds : List Char)
    (h : plus p ds = true) : isRun cls ds = true := by
  simp only [plus, isRun, Bool.and_eq_true, List.all_eq_true] at h ⊢
  exact ⟨h.1, fun c hc => hp c (h.2 c hc)⟩

/-- The text before the rest that `dropSign` leaves is an optional sign. -/
theorem dropSign_cut (cs : List Char) : ∃ s, isOptSign s = true ∧ cs = s ++ dropSign cs := by
  cases cs with
  | nil => exact ⟨[], rfl, rfl⟩
  | cons c r =>
    by_cases hc : isSign c = true
    · refine ⟨[c], ?_, by simp [dropSign, hc]⟩
      simp only [isSign, Bool.or_eq_true, beq_iff_eq] at hc
      rcases hc with rfl | rfl <;> rfl
    · exact ⟨[], rfl, by simp [dropSign, hc]⟩

theorem specSigned_of_plus (p : Char → Bool) (cls : List Char)
    (hp : ∀ c, p c = true → cls.contains c = true) (cs : List Char)
    (h : plus p (dropSign cs) = true) : specSigned cls cs = true := by
  obtain ⟨s, hs, hcs⟩ := dropSign_cut cs
  unfold specSigned
  rw [hcs]
  apply any_splits
  simp only [hs, isRun_of_plus p cls hp _ h, Bool.and_self]

theorem reRadix_isSome (l u : Char) (p : Char → Bool) (cs : List Char)
    (h : (reRadix l u p cs).isSome = true) :
    ∃ c r, cs = '#' :: c :: r ∧ (c == l || c == u) = true ∧ plus p (dropSign r) = true := by
  unfold reRadix at h
  split at h
  · rename_i c r
    split at h
    · rename_i hc
      simp only [Bool.and_eq_true] at hc
      exact ⟨c, r, rfl, hc.1, hc.2⟩
    · exact Bool.noConfusion h
  · exact Bool.noConfusion h

theorem reRadix_spec (cs : List Char)
    (h : (reRadix 'b' 'B' isBinDigit cs).isSome = true ∨
      (reRadix 'o' 'O' isOctDigit cs).isSome = true ∨
      (reRadix 'x' 'X' isHexDigit cs).isSome = true) : specRadix cs = true := by
  rcases h with h | h | h
  · obtain ⟨c, r, rfl, hc, hp⟩ := reRadix_isSome _ _ _ _ h
    simp only [specRadix, hc, specSigned_of_plus _ _ isBinDigit_bin r hp, Bool.and_self,
      Bool.true_or]
  · obtain ⟨c, r, rfl, hc, hp⟩ := reRadix_isSome _ _ _ _ h
    simp only [specRadix, hc, specSigned_of_plus _ _ isOctDigit_oct r hp, Bool.and_self,
      Bool.true_or, Bool.or_true]
  · obtain ⟨c, r, rfl, hc, hp⟩ := reRadix_isSome _ _ _ _ h
    simp only [specRadix, hc, specSigned_of_plus _ _ isHexDigit_hex r hp, Bool.and_self,
      Bool.or_true]

/-- What the pattern `[-+]?[[:digit:]]+` followed by more text takes: an
optionally signed run of digits, and the text left. -/
theorem span_digits_cut (cs : List Char) (a r : List Char)
    (h : (dropSign cs).span isDigit = (a, r)) (ha : a.isEmpty = false) :
    cs = (cs.take (cs.length - r.length)) ++ r ∧
      specSigned decDigits (cs.take (cs.length - r.length)) = true := by
  rw [List.span_eq_take_drop] at h
  simp only [Prod.mk.injEq] at h
  obtain ⟨h1, h2⟩ := h
  obtain ⟨s, hs, hcs⟩ := dropSign_cut cs
  have hbody : dropSign cs = a ++ r := by
    rw [← h1, ← h2, List.takeWhile_append_dropWhile]
  have hcut : cs = (s ++ a) ++ r := by rw [hcs, hbody, List.append_assoc]
  have htake : cs.take (cs.length - r.length) = s ++ a := by
    have hlen : cs.length - r.length = (s ++ a).length := by
      rw [hcut]; simp only [List.length_append]; omega
    rw [hlen]
    conv_lhs => rw [hcut]
    rw [List.take_left]
  rw [htake]
  refine ⟨hcut, ?_⟩
  unfold specSigned
  apply any_splits
  have hall : ∀ c ∈ a, decDigits.contains c = true := fun c hc =>
    isDigit_dec c (by
      rw [← h1] at hc
      simpa using List.mem_takeWhile_imp hc)
  simp only [hs, isRun, ha, Bool.not_false, List.all_eq_true, Bool.true_and]
  exact hall

theorem reFloat_spec (cs : List Char) (h : reFloat cs = true) : specFloat cs = true := by
  unfold reFloat at h
  split at h
  · rename_i a b heq
    simp only [Bool.and_eq_true, Bool.not_eq_true'] at h
    obtain ⟨hcut, hsig⟩ := span_digits_cut cs a ('.' :: b) heq h.1
    unfold specFloat
    rw [hcut]
    apply any_splits
    simp only [hsig, Bool.true_and]
    exact isRun_of_plus _ _ isDigit_dec b h.2
  · exact Bool.noConfusion h

theorem expTail_spec (r x : List Char)
    (h : (match r with
      | c :: x => if ((c == 'e' || c == 'E') && plus isDigit (dropSign x)) = true then some x
        else none
      | [] => none) = some x) :
    ∃ e, r = e :: x ∧ (e == 'e' || e == 'E') = true ∧ specSigned decDigits x = true := by
  cases r with
  | nil => exact Option.noConfusion h
  | cons c y =>
    dsimp only at h
    split at h
    · rename_i hc
      simp only [Bool.and_eq_true] at hc
      have := Option.some.inj h
      subst this
      exact ⟨c, rfl, hc.1, specSigned_of_plus _ _ isDigit_dec _ hc.2⟩
    · exact Option.noConfusion h

theorem reExpFloat_spec (cs : List Char) (h : (reExpFloat cs).isSome = true) :
    specExpFloat cs = true := by
  unfold reExpFloat at h
  rcases hspan : (dropSign cs).span isDigit with ⟨a, r⟩
  rw [hspan] at h
  dsimp only at h
  by_cases ha : a.isEmpty = true
  · rw [if_pos ha] at h; exact Bool.noConfusion h
  · rw [if_neg ha] at h
    have ha' : a.isEmpty = false := by simpa using ha
    obtain ⟨hcut, hsig⟩ := span_digits_cut cs a r hspan ha'
    generalize List.take (cs.length - r.length) cs = pre at hcut hsig
    split at h
    · rename_i x hx
      rw [Option.bind_eq_some] at hx
      obtain ⟨r', hr', htail⟩ := hx
      obtain ⟨e, rfl, he, hexp⟩ := expTail_spec r' x htail
      unfold specExpFloat
      split at hr'
      · rename_i r1
        split at hr'
        · exact Option.noConfusion hr'
        · rename_i hb
          have h2 := Option.some.inj hr'
          rw [List.span_eq_take_drop] at h2 hb
          dsimp only at h2 hb
          have hr1 : r1 = List.takeWhile isDigit r1 ++ e :: x := by
            conv_lhs => rw [← List.takeWhile_append_dropWhile isDigit r1, h2]
          have hcs : cs = (pre ++ '.' :: List.takeWhile isDigit r1) ++ e :: x := by
            conv_lhs => rw [hcut, hr1]
            simp
          rw [hcs]
          apply any_splits
          simp only [he, hexp, Bool.and_self, Bool.and_true, Bool.or_eq_true]
          right
          unfold specFloat
          apply any_splits
          simp only [hsig, Bool.true_and, isRun, Bool.and_eq_true, Bool.not_eq_true',
            List.all_eq_true]
          refine ⟨by simpa using hb, fun c hc => isDigit_dec c ?_⟩
          simpa using List.mem_takeWhile_imp hc
      · have h2 := Option.some.inj hr'
        rw [h2] at hcut
        rw [hcut]
        apply any_splits
        simp only [he, hexp, hsig, Bool.and_self, Bool.true_or]
    · exact Bool.noConfusion h

theorem reChar_spec (cs : List Char) (h : (reChar cs).isSome = true) : specChar cs = true := by
  unfold reChar at h
  split at h
  · rename_i c
    split at h
    · rename_i hc
      have : 33 ≤ c.toNat ∧ c.toNat ≤ 126 := by simpa [isGraph, inRange] using hc
      simp [specChar, this]
    · exact Bool.noConfusion h
  · exact Bool.noConfusion h

theorem reDelimited_spec (q : Char) (cs : List Char) (h : reDelimited q cs = true) :
    specWrapped q cs = true := by
  match cs, h with
  | [c], h => simp [reDelimited] at h
  | c :: d :: r, h =>
    simp only [reDelimited, Bool.and_eq_true, beq_iff_eq] at h
    obtain ⟨⟨⟨rfl, -⟩, hlast⟩, -⟩ := h
    simp only [specWrapped, List.length_cons, List.head?_cons, List.getLast?_cons_cons,
      Bool.and_eq_true, decide_eq_true_eq, beq_iff_eq]
    exact ⟨⟨by omega, trivial⟩, by simpa using hlast⟩

theorem symbolForm_spec (cs : List Char) (h : symbolForm isSymRest cs = true) :
    specSymbol amendedRest cs = true := by
  simp only [symbolForm, Bool.or_eq_true] at h
  simp only [specSymbol, Bool.or_eq_true]
  rcases h with (((((h | h) | h) | h) | h) | h) | h
  · left; left; left; left; left; left
    cases cs with
    | nil => exact Bool.noConfusion h
    | cons c r =>
      simp only [Bool.and_eq_true] at h ⊢
      exact ⟨h.1, isRun_of_plus _ _ isAlpha_letters r h.2⟩
  · left; left; left; left; left; right
    exact reDelimited_spec _ _ h
  · left; left; left; left; right; simpa using h
  · left; left; left; right; simpa using h
  · left; left; right; simpa using h
  · left; right; simpa using h
  · right
    cases cs with
    | nil => exact Bool.noConfusion h
    | cons c r =>
      simp only [Bool.and_eq_true, List.all_eq_true] at h ⊢
      exact ⟨isSymStart_spec c h.1, fun x hx => isSymRest_spec x (h.2 x hx)⟩

/-- Whatever one of the patterns of `ParseAtom` matches is an atom form of the
grammar, with `+` among the later runes of an identifier. -/
theorem atomForm_spec (tok : String) (h : atomForm isSymRest tok = true) :
    specAtom amendedRest tok = true := by
  simp only [atomForm, Bool.or_eq_true] at h
  simp only [specAtom, Bool.or_eq_true]
  rcases h with ((((((((((h | h) | h) | h) | h) | h) | h) | h) | h) | h) | h) | h
  · exact Or.inl (Or.inl (Or.inl (Or.inl (Or.inl (Or.inl (Or.inl
      (specSigned_of_plus _ _ isDigit_dec _ h)))))))
  · exact Or.inl (Or.inl (Or.inl (Or.inl (Or.inl (Or.inl (Or.inr
      (reRadix_spec _ (Or.inl h))))))))
  · exact Or.inl (Or.inl (Or.inl (Or.inl (Or.inl (Or.inl (Or.inr
      (reRadix_spec _ (Or.inr (Or.inl h)))))))))
  · exact Or.inl (Or.inl (Or.inl (Or.inl (Or.inl (Or.inl (Or.inr
      (reRadix_spec _ (Or.inr (Or.inr h)))))))))
  · exact Or.inl (Or.inl (Or.inl (Or.inl (Or.inl (Or.inr (reFloat_spec _ h))))))
  · exact Or.inl (Or.inl (Or.inl (Or.inl (Or.inr (reExpFloat_spec _ h)))))
  · refine Or.inl (Or.inl (Or.inl (Or.inr ?_)))
    have : tok = "#\\newline" := by simpa using h
    subst this; decide
  · refine Or.inl (Or.inl (Or.inl (Or.inr ?_)))
    have : tok = "#\\space" := by simpa using h
    subst this; decide
  · exact Or.inl (Or.inl (Or.inl (Or.inr (reChar_spec _ h))))
  · exact Or.inl (Or.inl (Or.inr (reDelimited_spec _ _ h)))
  · exact Or.inl (Or.inr h)
  · exact Or.inr (symbolForm_spec _ h)

/-! ## Atoms: what the grammar of the specification rejects -/

/-- **C6**, counterexample. The token `a+` is none of the atom forms of the
grammar as the claim lists them, since `+` is not among the later runes of an
identifier there, and yet it is read as the Symbol `A+`: the class of the
later runes in the pattern of the code contains `+`. -/
theorem ParseAtom_accepts_plus :
    specAtom claimRest "a+" = false ∧
    ParseAtom sampleHost "a+" = (Instance.Symbol "A+", Instance.nil) := by
  decide

/-- **C6**, amended. With `+` counted among the later runes of an identifier, a
token that is not empty and is none of the atom forms of the grammar is
rejected: no value, and a ParseError whose STRING is the token and whose
EXPECTED-CLASS is Object. `@bad` and `1abc` are rejected. -/
theorem ParseAtom_rejects (H : Host) (tok : String) (hne : tok ≠ "")
    (h : specAtom amendedRest tok = false) :
    ParseAtom H tok = (Instance.nil,
      Instance.ParseError (Instance.String tok) (Instance.Class Class.Object)) ∧
    ParseAtom H "@bad" = (Instance.nil,
      Instance.ParseError (Instance.String "@bad") (Instance.Class Class.Object)) ∧
    ParseAtom H "1abc" = (Instance.nil,
      Instance.ParseError (Instance.String "1abc") (Instance.Class Class.Object)) := by
  refine ⟨ParseAtom_unmatched H tok hne ?_, rfl, rfl⟩
  cases hb : atomForm isSymRest tok with
  | false => rfl
  | true =>
    have := atomForm_spec tok hb
    rw [h] at this
    exact Bool.noConfusion this

/-- Witness of C6 as amended: the token `12x`. -/
theorem ParseAtom_rejects_witness :
    "12x" ≠ "" ∧ specAtom amendedRest "12x" = false ∧
    ParseAtom sampleHost "12x" = (Instance.nil,
      Instance.ParseError (Instance.String "12x") (Instance.Class Class.Object)) :=
  ⟨by decide, by decide, (ParseAtom_rejects sampleHost "12x" (by decide) (by decide)).1⟩

/-! ## Symbols of the grammar -/

theorem contains_mem (cls : List Char) (c : Char) (h : cls.contains c = true) : c ∈ cls := by
  simpa using h

theorem letters_isAlpha : ∀ c ∈ letters, isAlpha c = true := by decide

theorem start_isSymStart : ∀ c ∈ letters ++ punctuation, isSymStart c = true := by decide

theorem claimRest_isSymRest : ∀ c ∈ claimRest, isSymRest c = true := by decide

theorem specWrapped_reDelimited (q : Char) (cs : List Char) (h : specWrapped q cs = true)
    (hn : '\n' ∉ cs) : reDelimited q cs = true := by
  match cs, h, hn with
  | [], h, _ => simp [specWrapped] at h
  | [c], h, _ => simp [specWrapped] at h
  | c :: d :: r, h, hn =>
    simp only [specWrapped, List.head?_cons, List.getLast?_cons_cons, Bool.and_eq_true,
      beq_iff_eq, Option.some.injEq] at h
    obtain ⟨⟨-, rfl⟩, hlast⟩ := h
    simp only [reDelimited, beq_self_eq_true, List.isEmpty_cons, Bool.not_false, Bool.true_and,
      Bool.and_eq_true, beq_iff_eq, List.all_eq_true]
    refine ⟨hlast, fun x hx => ?_⟩
    have hx' : x ∈ c :: d :: r := List.mem_cons_of_mem _ (List.dropLast_subset _ hx)
    have : x ≠ '\n' := fun e => hn (e ▸ hx')
    simp [isDot, this]

/-- A symbol of the grammar of the specification without a line feed matches the
pattern of the symbols. -/
theorem specSymbol_reSymbol (cs : List Char) (h : specSymbol claimRest cs = true)
    (hn : '\n' ∉ cs) : reSymbol cs = true := by
  simp only [specSymbol, Bool.or_eq_true] at h
  rw [reSymbol_eq]
  simp only [symbolForm, Bool.or_eq_true]
  left
  rcases h with (((((h | h) | h) | h) | h) | h) | h
  · left; left; left; left; left; left
    cases cs with
    | nil => exact Bool.noConfusion h
    | cons c r =>
      simp only [Bool.and_eq_true, isRun, plus, List.all_eq_true] at h ⊢
      exact ⟨h.1, h.2.1, fun x hx => letters_isAlpha x (contains_mem _ _ (h.2.2 x hx))⟩
  · left; left; left; left; left; right
    exact specWrapped_reDelimited _ _ h hn
  · left; left; left; left; right; simpa using h
  · left; left; left; right; simpa using h
  · left; left; right; simpa using h
  · left; right; simpa using h
  · right
    cases cs with
    | nil => exact Bool.noConfusion h
    | cons c r =>
      simp only [Bool.and_eq_true, List.all_eq_true] at h ⊢
      exact ⟨start_isSymStart c (contains_mem _ _ h.1),
        fun x hx => claimRest_isSymRest x (contains_mem _ _ (h.2 x hx))⟩

theorem upperRune_sameLetter (H : Host) (c d : Char) (h : SameLetter H c d) :
    upperRune H c = upperRune H d := by
  rcases h with rfl | ⟨hc, hd, h⟩ | ⟨hc, hd, h⟩
  · rfl
  · have hc' : (97 ≤ c.toNat ∧ c.toNat ≤ 122) ∨ (65 ≤ c.toNat ∧ c.toNat ≤ 90) := by
      simpa [isAlpha, inRange] using hc
    have hd' : (97 ≤ d.toNat ∧ d.toNat ≤ 122) ∨ (65 ≤ d.toNat ∧ d.toNat ≤ 90) := by
      simpa [isAlpha, inRange] using hd
    have key : ∀ lo up : Char, (97 ≤ lo.toNat ∧ lo.toNat ≤ 122) → up.toNat + 32 = lo.toNat →
        upperRune H lo = upperRune H up := by
      intro lo up hlo hup
      have l1 : inRange 'a' 'z' lo = true := by simp [inRange]; omega
      have l2 : inRange 'a' 'z' up = false := by simp [inRange]; omega
      have e : lo.toNat - 32 = up.toNat := by omega
      simp only [upperRune, l1, l2, if_true, Bool.false_eq_true, if_false, e,
        Char.ofNat_toNat]
      rw [if_pos (by omega), if_pos (by omega)]
    rcases h with h | h
    · exact (key d c (by omega) h).symm
    · exact key c d (by omega) h
  · unfold upperRune
    rw [if_neg (by omega), if_neg (by omega), h]

theorem map_upperRune_sameLetter (H : Host) (l1 l2 : List Char)
    (h : List.Forall₂ (SameLetter H) l1 l2) :
    l1.map (upperRune H) = l2.map (upperRune H) := by
  induction h with
  | nil => rfl
  | cons hcd _ ih => simp only [List.map_cons, upperRune_sameLetter H _ _ hcd, ih]

theorem ToUpper_caseVariant (H : Host) (a b : String) (h : CaseVariant H a b) :
    ToUpper H a = ToUpper H b := by
  unfold ToUpper
  rw [map_upperRune_sameLetter H _ _ h]

/-- **C7**, counterexample. The token of a pipe, `a`, a line feed, `b` and a pipe
is pipe-delimited text, a symbol of the grammar, and it is no Symbol: the
pattern `\|.*\|` does not match it, since `.` matches no line feed, and the
result is a parse error. -/
theorem ParseAtom_pipe_newline :
    "|a\nb|" ≠ "nil" ∧ specSymbol claimRest "|a\nb|".toList = true ∧
    ParseAtom sampleHost "|a\nb|" =
      (Instance.nil,
        Instance.ParseError (Instance.String "|a\nb|") (Instance.Class Class.Object)) := by
  decide

/-- **C7**, amended. A token other than `nil` that is a symbol of the grammar and
holds no line feed is read as the Symbol named by the upper-cased token, with
no condition; hence two such tokens that differ only in the case of their
letters are read as the same Symbol. `abc` gives the Symbol `ABC` and `nil`
gives Null. -/
theorem ParseAtom_symbol_upper (H : Host) :
    (∀ tok : String, tok ≠ "nil" → specSymbol claimRest tok.toList = true →
      '\n' ∉ tok.toList →
      ParseAtom H tok = (Instance.Symbol (ToUpper H tok), Instance.nil)) ∧
    (∀ a b : String, a ≠ "nil" → b ≠ "nil" → specSymbol claimRest a.toList = true →
      specSymbol claimRest b.toList = true → '\n' ∉ a.toList → '\n' ∉ b.toList →
      CaseVariant H a b → ParseAtom H a = ParseAtom H b) ∧
    ParseAtom H "abc" = (Instance.Symbol "ABC", Instance.nil) ∧
    ParseAtom H "nil" = (Instance.Null, Instance.nil) := by
  have key : ∀ tok : String, tok ≠ "nil" → specSymbol claimRest tok.toList = true →
      '\n' ∉ tok.toList →
      ParseAtom H tok = (Instance.Symbol (ToUpper H tok), Instance.nil) :=
    fun tok hn hs hl => ParseAtom_symbol H tok hn (specSymbol_reSymbol _ hs hl)
  refine ⟨key, ?_, rfl, rfl⟩
  intro a b ha hb hsa hsb hla hlb hab
  rw [key a ha hsa hla, key b hb hsb hlb, ToUpper_caseVariant H a b hab]

/-- Witness of C7 as amended: the tokens `car` and `CaR`, and the pipe-delimited
token `|x y|`. -/
theorem ParseAtom_symbol_upper_witness :
    ("car" ≠ "nil" ∧ specSymbol claimRest "car".toList = true ∧ '\n' ∉ "car".toList ∧
      ParseAtom sampleHost "car" = (Instance.Symbol "CAR", Instance.nil)) ∧
    ParseAtom sampleHost "|x y|" = (Instance.Symbol "|X Y|", Instance.nil) ∧
    ParseAtom sampleHost "car" = ParseAtom sampleHost "CaR" :=
  ⟨⟨by decide, by decide, by decide,
    (ParseAtom_symbol_upper sampleHost).1 "car" (by decide) (by decide) (by decide)⟩,
   (ParseAtom_symbol_upper sampleHost).1 "|x y|" (by decide) (by decide) (by decide),
   (ParseAtom_symbol_upper sampleHost).2.1 "car" "CaR" (by decide) (by decide) (by decide)
    (by decide) (by decide) (by decide)
    (List.Forall₂.cons (Or.inr (Or.inl ⟨by decide, by decide, Or.inr (by decide)⟩))
      (List.Forall₂.cons (Or.inl rfl)
        (List.Forall₂.cons (Or.inr (Or.inl ⟨by decide, by decide, Or.inr (by decide)⟩))
          List.Forall₂.nil)))⟩

/-! ## Sentinels and forms -/

/-- **C4**, amended. The value slot of the result of a top-level call is never
one of the two sentinels, and on tokens that begin with one well-formed form
the call returns a value and an empty condition slot, so no sentinel at all.
On any tokens the condition slot is `End Of Parentheses` only when the token
read last, just before the tokens left over, is `)`, and `Begin Of Dot` only
when it is `.`; a sequence that starts with `)` or with `.` does return the
sentinel. -/
theorem Parse_sentinel_only_read (H : Host) (hH : H.Distinct) (t : Tokenizer)
    (v e : Instance) (t' : Tokenizer) (h : ParseTop H t = some (v, e, t')) :
    (v ≠ eop ∧ v ≠ bod) ∧
    (∀ F R : List String, Form H FitsInt32 F → t = F ++ R →
      v ≠ Instance.nil ∧ e = Instance.nil ∧ t' = R) ∧
    (e = eop → (")" :: t') <:+ t) ∧ (e = bod → ("." :: t') <:+ t) ∧
    ParseTop H (")" :: t) = some (Instance.nil, eop, t) ∧
    ParseTop H ("." :: t) = some (Instance.nil, bod, t) := by
  have hl := (noLeak H hH _).1 t _ h
  refine ⟨hl.1, ?_, hl.2.1, hl.2.2.1, ParseTop_close H t, ParseTop_dot H t⟩
  intro F R hF ht
  obtain ⟨v0, hv0, hp⟩ := Parse_form H hH F hF R
  rw [← ht, h] at hp
  simp only [Option.some.injEq, Prod.mk.injEq] at hp
  obtain ⟨rfl, rfl, rfl⟩ := hp
  exact ⟨hv0, rfl, rfl⟩

/-- Witness of C4 as amended: the form `( a . b )` followed by a stray `)`. -/
theorem Parse_sentinel_only_read_witness :
    sampleHost.Distinct ∧
    Form sampleHost FitsInt32 ["(", "a", ".", "b", ")"] ∧
    ParseTop sampleHost ["(", "a", ".", "b", ")", ")"] =
      some (Instance.Cons (Instance.Symbol "A") (Instance.Symbol "B"), Instance.nil, [")"]) ∧
    (Instance.Cons (Instance.Symbol "A") (Instance.Symbol "B") ≠ Instance.nil ∧
      Instance.nil = Instance.nil ∧ [")"] = [")"]) :=
  have hF : Form sampleHost FitsInt32 ["(", "a", ".", "b", ")"] :=
    Form.dotted [["a"]] ["b"] (by decide) (fun f hf => by
      rw [List.mem_singleton.mp hf]; exact Form.atom "a" (by decide))
      (Form.atom "b" (by decide))
  ⟨sampleHost_distinct, hF, by decide,
    (Parse_sentinel_only_read sampleHost sampleHost_distinct
      ["(", "a", ".", "b", ")", ")"]
      (Instance.Cons (Instance.Symbol "A") (Instance.Symbol "B")) Instance.nil [")"]
      (by decide)).2.1 ["(", "a", ".", "b", ")"] [")"] hF rfl⟩

end Iris
